import Mathlib

/-!
Verification development for the `seeder` repository: a PostgreSQL database
seeder that introspects a schema, orders tables by foreign-key dependency,
and synthesizes rows that are intended to respect nullability, foreign keys
and unique constraints.

The development is a shallow embedding of the TypeScript sources:
  * `src/utils.ts`       — `quoteIdent`, `topologicalSort` (Kahn's algorithm);
  * `src/generate.ts`    — `generateValue` and its helpers;
  * `src/index.ts`       — `runSeeder`/`seedTable` and the row-synthesis
                           pipeline (`buildRowValues`, `buildUniqueConstraintSets`,
                           `loadUniqueConstraintValues`, `buildUniquePairQueues`,
                           `validateForeignKeyPools`, `valueToKey`, ...);
  * `src/cli.ts`         — the `maxRecords` normalization.

JavaScript runtime values are modelled by the inductive type `Value`;
the `faker` library (an external collaborator, seeded and deterministic) is
modelled by an explicit random stream `Rng` : each faker call consumes one
stream element.  Database I/O (`pg` client queries) is replaced by explicit
inputs: the existing rows of the table being seeded and the loaded
foreign-key pools are parameters of the pure pipeline `seedTablePure`.
-/

namespace Seeder

/-- A JavaScript runtime value as it flows through the seeder: SQL parameter
values, foreign-key pool entries and generated column values.  JS has a single
number type; the embedding distinguishes integer-valued results (`vint`) from
fractional ones because the program never compares the two.  Every fractional
number the program produces is a multiple of a power of ten
(`faker.number.float` with `fractionDigits`), so `vfloat units scale` denotes
the exact number `units / 10 ^ scale`.  `vdate` carries the ISO-8601 rendering of a `Date`, `vbytes` the hex
rendering of a `Buffer`, `vjson` the one object shape built by the json
branch of `generateValue`. -/
inductive Value where
  | vnull
  | vbool (b : Bool)
  | vint (n : Int)
  | vfloat (units : Int) (scale : Nat)
  | vstr (s : String)
  | vdate (iso : String)
  | vbytes (hex : String)
  | varr (elems : List Value)
  | vjson (id label createdAt : String)

/-- Boolean structural equality on `Value` (nested recursion over the list in
`varr`, kept structural so that the kernel can evaluate it). -/
def Value.beq : Value → Value → Bool
  | .vnull, .vnull => true
  | .vbool a, .vbool b => a == b
  | .vint a, .vint b => a == b
  | .vfloat a b, .vfloat c d => a == c && b == d
  | .vstr a, .vstr b => a == b
  | .vdate a, .vdate b => a == b
  | .vbytes a, .vbytes b => a == b
  | .varr xs, .varr ys => go xs ys
  | .vjson a b c, .vjson d e f => a == d && b == e && c == f
  | _, _ => false
where go : List Value → List Value → Bool
  | [], [] => true
  | a :: as, b :: bs => Value.beq a b && go as bs
  | _, _ => false

theorem Value.beq_iff : ∀ a b : Value, Value.beq a b = true ↔ a = b := by
  refine Value.beq.induct
    (fun xs ys => Value.beq.go xs ys = true ↔ xs = ys)
    (fun a b => Value.beq a b = true ↔ a = b)
    ?_ ?_ ?_ ?_ ?_ ?_ ?_ ?_ ?_ ?_ ?_ ?_ ?_
  · simp [Value.beq]
  · intro a b; simp [Value.beq]
  · intro a b; simp [Value.beq]
  · intro a b c d; simp [Value.beq]
  · intro a b; simp [Value.beq]
  · intro a b; simp [Value.beq]
  · intro a b; simp [Value.beq]
  · intro xs ys ih
    simp only [Value.beq, Value.varr.injEq]
    exact ih
  · intro a b c d e f
    simp [Value.beq]
    tauto
  · intro t x h1 h2 h3 h4 h5 h6 h7 h8 h9
    cases t <;> cases x <;> simp_all [Value.beq]
    exact (h9 _ _ _ _ _ _ rfl rfl rfl rfl rfl rfl).elim
  · simp [Value.beq.go]
  · intro a as b bs ih1 ih2
    simp only [Value.beq.go, Bool.and_eq_true, List.cons.injEq]
    rw [ih1, ih2]
  · intro t x h1 h2
    constructor
    · intro hbeq
      exfalso
      cases t with
      | nil =>
        cases x with
        | nil => exact h1 rfl rfl
        | cons b bs => simp [Value.beq.go] at hbeq
      | cons a as =>
        cases x with
        | nil => simp [Value.beq.go] at hbeq
        | cons b bs => exact h2 a as b bs rfl rfl
    · intro heq
      subst heq
      cases t with
      | nil => exact (h1 rfl rfl).elim
      | cons a as => exact (h2 a as a as rfl rfl).elim

instance : DecidableEq Value := fun a b =>
  decidable_of_iff (Value.beq a b = true) (Value.beq_iff a b)

instance {e a : Type} [DecidableEq e] [DecidableEq a] : DecidableEq (Except e a) := fun x y =>
  match x, y with
  | .error u, .error v => decidable_of_iff (u = v) (by simp)
  | .ok u, .ok v => decidable_of_iff (u = v) (by simp)
  | .error _, .ok _ => isFalse (by simp)
  | .ok _, .error _ => isFalse (by simp)

/-! ## String helpers

`strIncludes s pat` embeds JavaScript `s.includes(pat)` (substring test);
`jsonStringifyStrings` embeds `JSON.stringify` applied to an array of strings,
which is how canonical unique-constraint keys are rendered in the source. -/

/-- Does the second character list start with the first? -/
def charsMatchAt : List Char → List Char → Bool
  | [], _ => true
  | _ :: _, [] => false
  | p :: ps, c :: cs => p = c && charsMatchAt ps cs

/-- Does the character list contain the pattern as a contiguous segment? -/
def charsHave (pat : List Char) : List Char → Bool
  | [] => charsMatchAt pat []
  | c :: cs => charsMatchAt pat (c :: cs) || charsHave pat cs

/-- JavaScript `s.includes(pat)`. -/
def strIncludes (s pat : String) : Bool := charsHave pat.data s.data

/-- JavaScript `s.startsWith(pat)`. -/
def strStarts (s pat : String) : Bool := charsMatchAt pat.data s.data

/-- Lower-case one ASCII character. -/
def charToLower (c : Char) : Char :=
  if 65 ≤ c.toNat ∧ c.toNat ≤ 90 then Char.ofNat (c.toNat + 32) else c

/-- JavaScript `s.toLowerCase()` (ASCII suffices for the identifiers and type
names involved). -/
def strToLower (s : String) : String := String.mk (s.data.map charToLower)

/-- Hexadecimal digit for a value below 16. -/
def hexDigit (n : Nat) : Char :=
  if n < 10 then Char.ofNat (48 + n) else Char.ofNat (87 + (n % 16))

/-- JSON escaping of a single character, as performed by `JSON.stringify`. -/
def jsonEscapeChar (c : Char) : String :=
  if c = '"' then "\\\""
  else if c = '\\' then "\\\\"
  else if c = '\n' then "\\n"
  else if c = '\r' then "\\r"
  else if c = '\t' then "\\t"
  else if c.toNat = 8 then "\\b"
  else if c.toNat = 12 then "\\f"
  else if c.toNat < 32 then
    "\\u00" ++ String.singleton (hexDigit (c.toNat / 16)) ++ String.singleton (hexDigit (c.toNat % 16))
  else String.singleton c

/-- `JSON.stringify` of one string. -/
def jsonStr (s : String) : String :=
  "\"" ++ String.join (s.data.map jsonEscapeChar) ++ "\""

/-- `JSON.stringify` of an array of strings (no whitespace, comma separated). -/
def jsonStringifyStrings (l : List String) : String :=
  "[" ++ String.intercalate "," (l.map jsonStr) ++ "]"

/-- Left-pad a string with zeros up to the given length. -/
def padZeros (s : String) (len : Nat) : String :=
  if s.length < len then String.mk (List.replicate (len - s.length) '0') ++ s else s

/-- Drop trailing zero characters. -/
def dropTrailingZeros (s : String) : String :=
  String.mk (s.data.reverse.dropWhile (fun c => c = '0')).reverse

/-- JavaScript `String(n)` for a fractional number `units / 10 ^ scale`:
plain decimal notation, no trailing zeros, no decimal point when the number
is integral — matching `String` on the multiples of powers of ten the
program produces. -/
def floatToString (units : Int) (scale : Nat) : String :=
  if scale = 0 then toString units
  else
    let sign := if units < 0 then "-" else ""
    let a := units.natAbs
    let fracPart := dropTrailingZeros (padZeros (toString (a % 10 ^ scale)) scale)
    if fracPart = "" then sign ++ toString (a / 10 ^ scale)
    else sign ++ toString (a / 10 ^ scale) ++ "." ++ fracPart

/-- `JSON.stringify` of an arbitrary embedded value (used by `valueToKey` for
values that are neither primitive nor `Date`/`Buffer`). -/
def jsonOfValue : Value → String
  | .vnull => "null"
  | .vbool b => if b then "true" else "false"
  | .vint n => toString n
  | .vfloat units scale => floatToString units scale
  | .vstr s => jsonStr s
  | .vdate iso => jsonStr iso
  | .vbytes hex => jsonStr hex
  | .varr elems => "[" ++ String.intercalate "," (go elems) ++ "]"
  | .vjson id label createdAt =>
    "\x7b\"id\":" ++ jsonStr id ++ ",\"label\":" ++ jsonStr label ++
      ",\"createdAt\":" ++ jsonStr createdAt ++ "\x7d"
where go : List Value → List String
  | [] => []
  | v :: vs => jsonOfValue v :: go vs

/-! ## The seeded random source

The external `faker` library is deterministic from a seed; the embedding
replaces it by an explicit stream of naturals.  Each faker invocation consumes
exactly one stream element.  All theorems about randomized behaviour quantify
over every stream. -/

/-- A deterministic random source: an infinite stream and a position. -/
structure Rng where
  stream : Nat → Nat
  pos : Nat

/-- Consume one element of the stream. -/
def Rng.take (r : Rng) : Nat × Rng :=
  (r.stream r.pos, ⟨r.stream, r.pos + 1⟩)

/-- `faker.number.int \x7b min, max \x7d`: a value in `[lo, hi]` (`hi ≥ lo`). -/
def fakerInt (lo hi : Int) (r : Rng) : Int × Rng :=
  let (n, r1) := r.take
  (lo + (n : Int) % (hi - lo + 1), r1)

/-- `faker.number.int` with natural bounds. -/
def fakerNat (lo hi : Nat) (r : Rng) : Nat × Rng :=
  let (n, r1) := r.take
  (lo + n % (hi - lo + 1), r1)

/-- `faker.number.float \x7b min: 0, max, fractionDigits \x7d`: a multiple of
`10 ^ (-frac)` in `[0, max]`, returned as the scaled integer `k` denoting
`k / 10 ^ frac` (both maxima passed by the source are whole numbers). -/
def fakerFloat (maxN : Nat) (frac : Nat) (r : Rng) : Nat × Rng :=
  let (n, r1) := r.take
  (n % (maxN * 10 ^ frac + 1), r1)

/-- `faker.helpers.arrayElement` / `randomFromArray`: a uniformly chosen
element of a non-empty list (call sites guard non-emptiness; the default is
returned only for an empty list, which call sites exclude). -/
def pickArr {α : Type} (l : List α) (dflt : α) (r : Rng) : α × Rng :=
  let (n, r1) := r.take
  (l.getD (n % l.length) dflt, r1)

/-- The external faker text producers (`faker.internet.email`,
`faker.person.firstName`, `faker.lorem.word`, ...).  Modelled collaborator:
each produces some non-null string determined by the stream; the tag records
which producer ran. -/
def fakerText (tag : String) (r : Rng) : String × Rng :=
  let (n, r1) := r.take
  (tag ++ "-" ++ toString n, r1)

theorem fakerNat_le (lo hi : Nat) (r : Rng) (h : lo ≤ hi) :
    lo ≤ (fakerNat lo hi r).1 ∧ (fakerNat lo hi r).1 ≤ hi := by
  have he : (fakerNat lo hi r).1 = lo + r.take.1 % (hi - lo + 1) := rfl
  have hm : (r.take.1 % (hi - lo + 1)) < hi - lo + 1 := Nat.mod_lt _ (Nat.succ_pos _)
  rw [he]
  omega

/-! ## The schema model (`src/types.ts`)

Passive descriptors produced by introspection (an external collaborator).
`maxLength`, `numericPrecision` and `numericScale` are the values PostgreSQL
reports, hence natural numbers when present. -/

/-- One column of a table (`ColumnInfo` in `src/types.ts`). -/
structure ColumnInfo where
  name : String
  dataType : String
  udtName : String
  isNullable : Bool
  columnDefault : Option String
  isIdentity : Bool
  isGenerated : Bool
  maxLength : Option Nat
  numericPrecision : Option Nat
  numericScale : Option Nat
deriving DecidableEq

/-- A foreign-key constraint (`ForeignKeyInfo`): local columns paired
positionally with the referenced columns. -/
structure ForeignKeyInfo where
  columns : List String
  refSchema : String
  refTable : String
  refColumns : List String
deriving DecidableEq

/-- A unique constraint (`UniqueConstraintInfo`). -/
structure UniqueConstraintInfo where
  name : String
  columns : List String
deriving DecidableEq

/-- A table descriptor (`TableInfo`). -/
structure TableInfo where
  schema : String
  name : String
  columns : List ColumnInfo
  pkColumns : List String
  fks : List ForeignKeyInfo
  uniqueConstraints : List UniqueConstraintInfo
deriving DecidableEq

/-- A per-column override from the configuration (`OverrideSpec` in
`src/generate.ts`): either explicit candidate values or a faker generator
path. -/
structure OverrideSpec where
  fakerPath : Option String
  values : Option (List Value)
deriving DecidableEq

/-- The enum map produced by `loadEnums` (`EnumMap`): type name (bare and
schema-qualified) to ordered label list.  Modelled as an association list with
first-match lookup, like a JS `Map`. -/
def EnumMap : Type := List (String × List String)

/-- JS `map.get(k)` on an association list. -/
def jsGet {α : Type} (m : List (String × α)) (k : String) : Option α :=
  (m.find? (fun e => e.1 = k)).map (fun e => e.2)

/-! ## `src/utils.ts` : `quoteIdent` -/

/-- `quoteIdent`: double-quote an identifier, doubling embedded quotes. -/
def quoteIdent (value : String) : String :=
  "\"" ++ String.join (value.data.map (fun c => if c = '"' then "\"\"" else String.singleton c)) ++ "\""

/-! ## `src/generate.ts` : the Type-to-Value Producer -/

/-- `NAME_HINTS`: the ordered list of column-name patterns.  Each source
pattern is an unanchored alternation of literal fragments; a pattern matches
when any fragment occurs inside the lower-cased column name.  The second
component tags the external faker producer the source invokes. -/
def nameHints : List (List String × String) :=
  [ (["email"], "email"),
    (["first_name", "firstname", "given_name"], "firstName"),
    (["last_name", "lastname", "family_name", "surname"], "lastName"),
    (["full_name", "name"], "fullName"),
    (["username", "user_name", "login"], "userName"),
    (["phone", "phone_number", "mobile"], "phoneNumber"),
    (["address"], "streetAddress"),
    (["city"], "city"),
    (["state", "province", "region"], "state"),
    (["zip", "postal"], "zipCode"),
    (["country"], "country"),
    (["company", "org", "organization"], "companyName"),
    (["title"], "sentence"),
    (["description", "bio", "notes", "summary"], "paragraph"),
    (["url", "website"], "url"),
    (["slug"], "slug") ]

/-- `generateFromHints`, selection part: the producer tag of the first hint
whose pattern matches the lower-cased column name, if any. -/
def hintTagFor (columnName : String) : Option String :=
  (nameHints.find? (fun h => h.1.any (fun p => strIncludes (strToLower columnName) p))).map (fun h => h.2)

/-- `clampString`: truncate to the declared maximum length.  A missing or zero
maximum (`!maxLength` in JS treats `0` as absent) leaves the value unchanged. -/
def clampString (value : String) (maxLength : Option Nat) : String :=
  match maxLength with
  | none => value
  | some 0 => value
  | some m => if value.length ≤ m then value else value.take (max 1 m)

/-- `udtToDataType`: map a base udt name back to its `data_type` spelling. -/
def udtToDataType (udtName : String) : String :=
  if udtName = "int2" then "smallint"
  else if udtName = "int4" then "integer"
  else if udtName = "int8" then "bigint"
  else if udtName = "varchar" then "character varying"
  else if udtName = "text" then "text"
  else if udtName = "bool" then "boolean"
  else if udtName = "float4" then "real"
  else if udtName = "float8" then "double precision"
  else if udtName = "numeric" then "numeric"
  else if udtName = "date" then "date"
  else if udtName = "timestamp" then "timestamp"
  else if udtName = "timestamptz" then "timestamp with time zone"
  else if udtName = "uuid" then "uuid"
  else if udtName = "json" then "json"
  else if udtName = "jsonb" then "jsonb"
  else if udtName = "inet" then "inet"
  else udtName

/-- `resolveFakerPath`: walking a dotted path over the external faker object.
Modelled collaborator: a fixed registry of invocable generator paths, each
producing a non-null string; any other path fails to resolve (the source then
throws `Invalid faker override`). -/
def resolveFakerPath (path : String) : Option (Rng → String × Rng) :=
  if path = "internet.email" then some (fakerText "email")
  else if path = "internet.userName" then some (fakerText "userName")
  else if path = "person.firstName" then some (fakerText "firstName")
  else if path = "person.lastName" then some (fakerText "lastName")
  else if path = "person.fullName" then some (fakerText "fullName")
  else if path = "lorem.word" then some (fakerText "word")
  else if path = "lorem.sentence" then some (fakerText "sentence")
  else none

/-- The scalar (non-array) type-driven part of `generateValue`: enum labels,
network addresses, column-name hints, and the per-type generators.  No branch
can fail, so the result is a plain value. -/
def genScalar (column : ColumnInfo) (enums : EnumMap) (r : Rng) : Value × Rng :=
  let dataType := strToLower column.dataType
  match
    (if enums.isEmpty then none
     else
       match jsGet enums column.udtName with
       | some possible => if possible.isEmpty then none else some possible
       | none =>
         match jsGet enums ("public." ++ column.udtName) with
         | some possible => if possible.isEmpty then none else some possible
         | none => none)
  with
  | some possible =>
    let (s, r1) := pickArr possible "" r
    (.vstr s, r1)
  | none =>
    if strIncludes dataType "inet" || strIncludes dataType "cidr" then
      let (s, r1) := fakerText "ip" r
      (.vstr s, r1)
    else
      match hintTagFor column.name with
      | some tag =>
        let (s, r1) := fakerText tag r
        (.vstr (clampString s column.maxLength), r1)
      | none =>
        if strIncludes dataType "uuid" then
          let (s, r1) := fakerText "uuid" r
          (.vstr s, r1)
        else if strIncludes dataType "boolean" then
          let (n, r1) := r.take
          (.vbool (n % 2 = 0), r1)
        else if strIncludes dataType "integer" || strIncludes dataType "bigint" ||
            strIncludes dataType "smallint" then
          let (n, r1) := fakerInt 1 10000 r
          (.vint n, r1)
        else if strIncludes dataType "numeric" || strIncludes dataType "decimal" then
          let precision : Int := ((column.numericPrecision.getD 8 : Nat) : Int)
          let scale : Nat := column.numericScale.getD 2
          let maxV : Nat := 10 ^ (max 1 (precision - (scale : Int))).toNat - 1
          let (k, r1) := fakerFloat maxV scale r
          (.vfloat (k : Int) scale, r1)
        else if strIncludes dataType "real" || strIncludes dataType "double" then
          let (k, r1) := fakerFloat 10000 4 r
          (.vfloat (k : Int) 4, r1)
        else if strIncludes dataType "timestamp" then
          let (s, r1) := fakerText "pastIso" r
          (.vstr s, r1)
        else if strIncludes dataType "date" then
          let (s, r1) := fakerText "pastIso" r
          (.vstr (s.take 10), r1)
        else if strIncludes dataType "time" then
          let (s, r1) := fakerText "recentTime" r
          (.vstr s, r1)
        else if strIncludes dataType "json" then
          let (i, r1) := fakerText "uuid" r
          let (w, r2) := fakerText "word" r1
          let (c, r3) := fakerText "recentIso" r2
          (.vjson i w c, r3)
        else if strIncludes dataType "bytea" then
          let (s, r1) := fakerText "alphanumeric" r
          (.vbytes s, r1)
        else if strIncludes dataType "character" || strIncludes dataType "text" then
          let (s, r1) := fakerText "words" r
          (.vstr (clampString s column.maxLength), r1)
        else
          let (s, r1) := fakerText "word" r
          (.vstr (clampString s column.maxLength), r1)

/-- `generateValue`, fuelled worker.  The source recurses only in the array
branch, stripping one leading underscore from the udt name per level, so the
recursion depth is bounded by the length of the udt name; the wrapper
`generateValue` supplies that bound as fuel, and the out-of-fuel case (never
reached from the wrapper) mirrors the final fallback branch.  The element
count of an array is `faker.number.int \x7b min: 1, max: 3 \x7d`, so the
three possible counts are laid out explicitly.  Errors (`throw` in the
source) are returned in `Except`; the non-array type-driven part is
`genScalar`. -/
def genValueF : Nat → ColumnInfo → EnumMap → Option OverrideSpec → Rng →
    Except String (Value × Rng)
  | 0, column, _, _, r =>
    let (s, r1) := fakerText "word" r
    .ok (.vstr (clampString s column.maxLength), r1)
  | fuel + 1, column, enums, override, r =>
    match override with
    | some ⟨_, some (v :: vs)⟩ =>
      let (x, r1) := pickArr (v :: vs) .vnull r
      .ok (x, r1)
    | some ⟨some path, _⟩ =>
      match resolveFakerPath path with
      | some producer =>
        let (s, r1) := producer r
        .ok (.vstr s, r1)
      | none => .error ("Invalid faker override: " ++ path)
    | _ =>
      let udtName := strToLower column.udtName
      if strStarts udtName "_" then
        let baseName := udtName.drop 1
        let baseColumn : ColumnInfo :=
          { column with dataType := udtToDataType baseName, udtName := baseName }
        let (k, r1) := fakerNat 1 3 r
        match genValueF fuel baseColumn enums none r1 with
        | .error e => .error e
        | .ok (v1, r2) =>
          if k ≤ 1 then .ok (.varr [v1], r2)
          else
            match genValueF fuel baseColumn enums none r2 with
            | .error e => .error e
            | .ok (v2, r3) =>
              if k = 2 then .ok (.varr [v1, v2], r3)
              else
                match genValueF fuel baseColumn enums none r3 with
                | .error e => .error e
                | .ok (v3, r4) => .ok (.varr [v1, v2, v3], r4)
      else .ok (genScalar column enums r)

/-- `generateValue` (`src/generate.ts`): one synthetic value for a column,
honouring overrides, arrays, enums, name hints and type-driven generation. -/
def generateValue (column : ColumnInfo) (enums : EnumMap) (override : Option OverrideSpec)
    (r : Rng) : Except String (Value × Rng) :=
  genValueF (column.udtName.length + 1) column enums override r

/-! ## `src/index.ts` : the seeding pipeline

The `pg` client is an external collaborator; its queries are replaced by
explicit inputs: `existingRows` stands for the current contents of the table
being seeded (used for the row count and for loading existing unique-key
combinations) and `fkPools` for the foreign-key pools as loaded by
`loadForeignKeyPools` (keyed by `foreignKeyPoolKey`, exactly as the cache is). -/

/-- JS `map.set(k, v)` on an association list: replace the first binding of
`k`, or append a new binding. -/
def jsSetAssoc {α : Type} : List (String × α) → String → α → List (String × α)
  | [], k, v => [(k, v)]
  | (k1, v1) :: rest, k, v =>
    if k1 = k then (k, v) :: rest else (k1, v1) :: jsSetAssoc rest k v

/-- JS `Set.add` on a list carrying the insertion order. -/
def setAdd (s : List String) (k : String) : List String :=
  if s.contains k then s else s ++ [k]

/-- `Array.from(new Set(l))`: deduplicate keeping first occurrences. -/
def jsDedup {α : Type} [DecidableEq α] (l : List α) : List α :=
  l.foldl (fun acc x => if acc.contains x then acc else acc ++ [x]) []

/-- Replace the element at an index, leaving the list unchanged when the
index is out of range. -/
def listModify {α : Type} (f : α → α) : List α → Nat → List α
  | [], _ => []
  | x :: xs, 0 => f x :: xs
  | x :: xs, n + 1 => x :: listModify f xs n

/-- Index of the first occurrence (JS `indexOf`); returns the length when the
element is absent, in which case the caller's subsequent JS index access
yields `undefined`, modelled by the `getD` default. -/
def idxOfStr : List String → String → Nat
  | [], _ => 0
  | x :: xs, a => if x = a then 0 else idxOfStr xs a + 1

/-- `valueToKey`: canonicalize one value for unique-constraint bookkeeping.
`null` (and `undefined`, which the embedding folds into `vnull`) produces no
key; primitives go through `String(...)`; dates to ISO-8601; buffers to hex;
everything else through `JSON.stringify`. -/
def valueToKey : Value → Option String
  | .vnull => none
  | .vbool b => some (if b then "true" else "false")
  | .vint n => some (toString n)
  | .vfloat units scale => some (floatToString units scale)
  | .vstr s => some s
  | .vdate iso => some iso
  | .vbytes hex => some hex
  | .varr elems => some (jsonOfValue (.varr elems))
  | .vjson id label createdAt => some (jsonOfValue (.vjson id label createdAt))

/-- `buildUniqueKeyFromRow`: the canonical key of a synthesized row at the
given column indices — `null` as soon as any participating value has no key. -/
def buildUniqueKeyFromRow (values : List Value) (indices : List Nat) : Option String :=
  (go indices).map jsonStringifyStrings
where go : List Nat → Option (List String)
  | [] => some []
  | index :: rest =>
    match valueToKey (values.getD index .vnull) with
    | none => none
    | some key => (go rest).map (key :: ·)

/-- `buildUniqueKeyFromColumns`: the canonical key of a stored row (a mapping
from column name to value) at the given columns. -/
def buildUniqueKeyFromColumns (row : List (String × Value)) (columns : List String) :
    Option String :=
  (go columns).map jsonStringifyStrings
where go : List String → Option (List String)
  | [] => some []
  | column :: rest =>
    match valueToKey ((jsGet row column).getD .vnull) with
    | none => none
    | some key => (go rest).map (key :: ·)

/-- One entry of the in-memory uniqueness tracker (`UniqueConstraintSet`):
`indices` point into the insert-column list, `set` is the JS `Set<string>` of
reserved canonical keys, `pairQueue` the optional precomputed pair queue. -/
structure UCState where
  name : String
  columns : List String
  indices : List Nat
  set : List String
  pairQueue : Option (List (Value × Value))
deriving DecidableEq

/-- A key of the JS `Map` built inside `buildUniqueConstraintSets`.  The
source declares the second parameter as `String[]` but its only caller passes
the `ColumnInfo[]` of insert columns (the bundler strips types without
checking), so at runtime the map keys are column objects, not names. -/
inductive JsKey where
  | str (s : String)
  | col (c : ColumnInfo)
deriving DecidableEq

/-- Looking up each constraint column name in the object-keyed index map:
stops with `none` at the first miss, mirroring the `missing` flag. -/
def lookupIndices (indexMap : List (JsKey × Nat)) : List String → Option (List Nat)
  | [] => some []
  | column :: rest =>
    match (indexMap.find? (fun e => e.1 = JsKey.str column)).map (fun e => e.2) with
    | none => none
    | some index => (lookupIndices indexMap rest).map (index :: ·)

/-- `buildUniqueConstraintSets`: build the uniqueness trackers for every
unique constraint whose columns are all found in the index map.  The map is
keyed by the `ColumnInfo` objects of `insertColumns` (see `JsKey`) while the
probes use column-name strings, so every lookup misses at runtime. -/
def buildUniqueConstraintSets (table : TableInfo) (insertColumns : List ColumnInfo) :
    List UCState :=
  let indexMap : List (JsKey × Nat) :=
    (List.enum insertColumns).map (fun p => (JsKey.col p.2, p.1))
  table.uniqueConstraints.foldl
    (fun sets constraint =>
      if constraint.columns.length = 0 then sets
      else
        match lookupIndices indexMap constraint.columns with
        | none => sets
        | some indices =>
          sets ++ [{ name := constraint.name, columns := constraint.columns,
                     indices := indices, set := [], pairQueue := none }])
    []

/-- `loadUniqueConstraintValues`: seed each constraint's key set from the
rows currently in storage (the `select` of the constraint columns is replaced
by projecting the given rows). -/
def loadUniqueConstraintValues (existingRows : List (List (String × Value)))
    (constraints : List UCState) : List UCState :=
  constraints.map (fun c =>
    { c with set :=
        (existingRows.foldl
          (fun st row =>
            match buildUniqueKeyFromColumns row c.columns with
            | some key => setAdd st key
            | none => st)
          c.set) })

/-- `foreignKeyPoolKey`: the cache key of a foreign key's pool. -/
def foreignKeyPoolKey (fk : ForeignKeyInfo) : String :=
  fk.refSchema ++ "." ++ fk.refTable ++ ":" ++ String.intercalate "," fk.refColumns

/-- `resolveOverride`: exact `schema.table.column`, then `table.column`, then
bare column name, first match wins. -/
def resolveOverride (overrides : List (String × OverrideSpec))
    (schema table column : String) : Option OverrideSpec :=
  match jsGet overrides (schema ++ "." ++ table ++ "." ++ column) with
  | some ov => some ov
  | none =>
    match jsGet overrides (table ++ "." ++ column) with
    | some ov => some ov
    | none => jsGet overrides column

/-- `validateForeignKeyPools`: fail on the first foreign key whose pool is
empty while one of its local columns is not nullable (a column name missing
from the table also counts as requiring a value, as in the source's
`!columnMap.get(columnName)?.isNullable`). -/
def validateForeignKeyPools (table : TableInfo)
    (fkPools : List (String × List (List Value))) : Except String Unit :=
  go table.fks
where go : List ForeignKeyInfo → Except String Unit
  | [] => .ok ()
  | fk :: rest =>
    let pool := (jsGet fkPools (foreignKeyPoolKey fk)).getD []
    if pool.length > 0 then go rest
    else
      let requiresValue := fk.columns.any (fun columnName =>
        !(((table.columns.find? (fun c => c.name = columnName)).map
            (fun c => c.isNullable)).getD false))
      if requiresValue then
        .error ("Foreign key pool empty for " ++ table.schema ++ "." ++ table.name ++
          " -> " ++ fk.refSchema ++ "." ++ fk.refTable ++
          ". Seed parent table first or allow nulls on " ++
          String.intercalate ", " fk.columns ++ ".")
      else go rest

/-- One Fisher-Yates step sequence: swap positions `i` and `j ∈ [0, i]` for
`i` descending (`shuffleInPlace`). -/
def shuffleGo : Nat → List (Value × Value) → Rng → List (Value × Value) × Rng
  | 0, l, r => (l, r)
  | k + 1, l, r =>
    let (j, r1) := fakerNat 0 (k + 1) r
    let vi := l.getD (k + 1) (.vnull, .vnull)
    let vj := l.getD j (.vnull, .vnull)
    shuffleGo k ((l.set (k + 1) vj).set j vi) r1

/-- `shuffleInPlace` (Fisher-Yates with `faker.number.int`). -/
def shuffleInPlace (l : List (Value × Value)) (r : Rng) : List (Value × Value) × Rng :=
  shuffleGo (l.length - 1) l r

/-- The candidate pairs of `buildUniquePairQueues`: cross product of the two
distinct-value lists, dropping pairs whose key is already reserved. -/
def candidatePairs (valuesA valuesB : List Value) (reserved : List String) :
    List (Value × Value) :=
  valuesA.foldr
    (fun a acc =>
      (valuesB.foldr
        (fun b inner =>
          match buildUniqueKeyFromRow [a, b] [0, 1] with
          | none => inner
          | some key => if reserved.contains key then inner else (a, b) :: inner)
        []) ++ acc)
    []

/-- `buildUniquePairQueues`: for each two-column constraint whose columns are
both single-column foreign keys with small pools, precompute the shuffled
queue of not-yet-used pairs. -/
def buildUniquePairQueues (table : TableInfo)
    (fkPools : List (String × List (List Value))) (constraints : List UCState)
    (target : Nat) (r : Rng) : List UCState × Rng :=
  let fkColumnValues : List (String × List Value) :=
    table.fks.foldl
      (fun m fk =>
        if fk.columns.length = 1 then
          let pool := (jsGet fkPools (foreignKeyPoolKey fk)).getD []
          let values := jsDedup ((pool.map (fun row => row.getD 0 .vnull)).filter
            (fun v => v ≠ .vnull))
          jsSetAssoc m (fk.columns.getD 0 "") values
        else m)
      []
  let maxPairs := max 200 (target * 5)
  go fkColumnValues maxPairs constraints r
where go (fkColumnValues : List (String × List Value)) (maxPairs : Nat) :
    List UCState → Rng → List UCState × Rng
  | [], r => ([], r)
  | c :: rest, r =>
    match c.columns with
    | [colA, colB] =>
      (match jsGet fkColumnValues colA, jsGet fkColumnValues colB with
       | some valuesA, some valuesB =>
         let total := valuesA.length * valuesB.length
         if total = 0 ∨ total > maxPairs then
           let (rest1, r1) := go fkColumnValues maxPairs rest r
           (c :: rest1, r1)
         else
           let pairs := candidatePairs valuesA valuesB c.set
           let (shuffled, r1) := shuffleInPlace pairs r
           let (rest1, r2) := go fkColumnValues maxPairs rest r1
           ({ c with pairQueue := some shuffled } :: rest1, r2)
       | _, _ =>
         let (rest1, r1) := go fkColumnValues maxPairs rest r
         (c :: rest1, r1))
    | _ =>
      let (rest1, r1) := go fkColumnValues maxPairs rest r
      (c :: rest1, r1)

/-- The per-attempt pair-queue consumption at the top of the retry loop of
`buildRowValues`: every constraint with a non-empty queue pops one pair and
pre-assigns its two column indices.  The JS preset map is keyed by
`constraint.indices[0]` / `indices[1]`, which are `undefined` (`none`) when
the index list is shorter than two — such entries never match a column
index. -/
def takePresets : List UCState → List (Option Nat × Value) × List UCState
  | [] => ([], [])
  | c :: rest =>
    let (pre, c1) :=
      match c.pairQueue with
      | some (p :: ps) =>
        ([(c.indices.get? 0, p.1), (c.indices.get? 1, p.2)], { c with pairQueue := some ps })
      | _ => ([], c)
    let (pres, rest1) := takePresets rest
    (pre ++ pres, c1 :: rest1)

/-- JS `Map.get` on the preset entries: the last `set` for a key wins. -/
def presetGet (presets : List (Option Nat × Value)) (i : Nat) : Option Value :=
  (presets.reverse.find? (fun e => e.1 = some i)).map (fun e => e.2)

/-- The `fkMap` lookup of `buildRowValues`: a column maps to the last foreign
key (in declaration order) containing it, because the map is filled by
iterating all foreign keys and overwriting per column.  The result is the
index into `table.fks`. -/
def lastFkIndex (fks : List ForeignKeyInfo) (columnName : String) : Option Nat :=
  ((List.enum fks).reverse.find? (fun e => e.2.columns.contains columnName)).map (fun e => e.1)

/-- The `fkAssignments` loop: for each foreign key, in order, sample one tuple
uniformly from its pool, or record no value when the pool is empty.
Positionally aligned with `table.fks` (distinct JS objects have distinct map
entries even when structurally equal). -/
def sampleAssignments (fks : List ForeignKeyInfo)
    (fkPools : List (String × List (List Value))) (r : Rng) :
    List (Option (List Value)) × Rng :=
  match fks with
  | [] => ([], r)
  | fk :: rest =>
    let pool := (jsGet fkPools (foreignKeyPoolKey fk)).getD []
    if pool.isEmpty then
      let (others, r1) := sampleAssignments rest fkPools r
      (none :: others, r1)
    else
      let (tuple, r1) := pickArr pool [] r
      let (others, r2) := sampleAssignments rest fkPools r1
      (some tuple :: others, r2)

/-- The body of the per-column loop of `buildRowValues`, for the column at
running index `i`: preset value, else foreign-key tuple element (null
fallback or fatal error on an empty pool), else random null injection for
nullable columns, else override resolution and `generateValue`. -/
def columnValue (table : TableInfo) (presets : List (Option Nat × Value))
    (assignments : List (Option (List Value))) (enums : EnumMap)
    (overrides : List (String × OverrideSpec)) (column : ColumnInfo) (i : Nat)
    (r : Rng) : Except String (Value × Rng) :=
  match presetGet presets i with
  | some v => .ok (v, r)
  | none =>
    match lastFkIndex table.fks column.name with
    | some fi =>
      match assignments.getD fi none with
      | none =>
        if column.isNullable then .ok (.vnull, r)
        else
          .error ("Foreign key pool empty for " ++ table.name ++ "." ++ column.name ++
            ". Ensure parent table " ++
            (table.fks.getD fi { columns := [], refSchema := "", refTable := "", refColumns := [] }).refTable ++
            " has rows or relax nullability.")
      | some tuple =>
        let position := idxOfStr
          (table.fks.getD fi { columns := [], refSchema := "", refTable := "", refColumns := [] }).columns
          column.name
        .ok (tuple.getD position .vnull, r)
    | none =>
      if column.isNullable then
        let (n, r1) := fakerInt 1 100 r
        if n ≤ 15 then .ok (.vnull, r1)
        else generateValue column enums (resolveOverride overrides table.schema table.name column.name) r1
      else generateValue column enums (resolveOverride overrides table.schema table.name column.name) r

/-- The per-column loop of `buildRowValues`: one value per insert column, in
declared order, threading the random stream; `i` is the running column
index. -/
def fillColumns (table : TableInfo) (presets : List (Option Nat × Value))
    (assignments : List (Option (List Value))) (enums : EnumMap)
    (overrides : List (String × OverrideSpec)) :
    List ColumnInfo → Nat → Rng → Except String (List Value × Rng)
  | [], _, r => .ok ([], r)
  | column :: rest, i, r =>
    match columnValue table presets assignments enums overrides column i r with
    | .error e => .error e
    | .ok (v, r1) =>
      match fillColumns table presets assignments enums overrides rest (i + 1) r1 with
      | .error e => .error e
      | .ok (vs, r2) => .ok (v :: vs, r2)

/-- The uniqueness check at the end of one attempt: walk the constraints in
order, skip those whose key is null, stop with `none` (conflict) as soon as a
key is already reserved, otherwise collect `(constraint index, key)` pairs. -/
def collectPendingKeys (values : List Value) (ucs : List UCState) :
    Option (List (Nat × String)) :=
  go ucs 0
where go : List UCState → Nat → Option (List (Nat × String))
  | [], _ => some []
  | c :: rest, i =>
    match buildUniqueKeyFromRow values c.indices with
    | none => go rest (i + 1)
    | some key =>
      if c.set.contains key then none
      else (go rest (i + 1)).map ((i, key) :: ·)

/-- Reserve the collected keys into their constraints' sets. -/
def applyPending (ucs : List UCState) (pending : List (Nat × String)) : List UCState :=
  pending.foldl (fun acc p => listModify (fun c => { c with set := setAdd c.set p.2 }) acc p.1) ucs

/-- One attempt of the retry loop of `buildRowValues`: consume pair queues,
sample foreign keys, fill all columns, then check uniqueness.  Result:
`some values` with updated constraint state on success, `none` on a
uniqueness conflict (pair-queue consumption is not rolled back), or the
propagated exception. -/
def attemptRow (table : TableInfo) (insertColumns : List ColumnInfo)
    (fkPools : List (String × List (List Value))) (enums : EnumMap)
    (overrides : List (String × OverrideSpec)) (ucs : List UCState) (r : Rng) :
    Except String (Option (List Value) × List UCState × Rng) :=
  let (presets, ucs1) := takePresets ucs
  let (assignments, r1) := sampleAssignments table.fks fkPools r
  match fillColumns table presets assignments enums overrides insertColumns 0 r1 with
  | .error e => .error e
  | .ok (values, r2) =>
    if ucs1.isEmpty then .ok (some values, ucs1, r2)
    else
      match collectPendingKeys values ucs1 with
      | none => .ok (none, ucs1, r2)
      | some pending => .ok (some values, applyPending ucs1 pending, r2)

/-- The retry bound of `buildRowValues`: 25 attempts when any unique
constraint applies, exactly one otherwise. -/
def retryAttemptsFor (ucs : List UCState) : Nat := if ucs.isEmpty then 1 else 25

/-- The bounded retry loop of `buildRowValues`; exhausting the attempts
raises the error naming the constraints. -/
def buildRowLoop (table : TableInfo) (insertColumns : List ColumnInfo)
    (fkPools : List (String × List (List Value))) (enums : EnumMap)
    (overrides : List (String × OverrideSpec)) :
    Nat → List UCState → Rng → Except String (List Value × List UCState × Rng)
  | 0, ucs, _ =>
    .error ("Unable to generate unique values for " ++ table.schema ++ "." ++ table.name ++
      ". Constraints: " ++ String.intercalate ", " (ucs.map (fun c => c.name)))
  | n + 1, ucs, r =>
    match attemptRow table insertColumns fkPools enums overrides ucs r with
    | .error e => .error e
    | .ok (some values, ucs1, r1) => .ok (values, ucs1, r1)
    | .ok (none, ucs1, r1) => buildRowLoop table insertColumns fkPools enums overrides n ucs1 r1

/-- `buildRowValues`: synthesize the values of one row, retrying on
uniqueness conflicts within the bounded number of attempts. -/
def buildRowValues (table : TableInfo) (insertColumns : List ColumnInfo)
    (fkPools : List (String × List (List Value))) (enums : EnumMap)
    (overrides : List (String × OverrideSpec)) (ucs : List UCState) (r : Rng) :
    Except String (List Value × List UCState × Rng) :=
  buildRowLoop table insertColumns fkPools enums overrides (retryAttemptsFor ucs) ucs r

/-- The row loop of `seedTable`: synthesize `target` rows sequentially,
threading the uniqueness state and the random stream (the batching of the
insert statements groups these same rows unchanged). -/
def seedRows (table : TableInfo) (insertColumns : List ColumnInfo)
    (fkPools : List (String × List (List Value))) (enums : EnumMap)
    (overrides : List (String × OverrideSpec)) :
    Nat → List UCState → Rng → Except String (List (List Value) × List UCState × Rng)
  | 0, ucs, r => .ok ([], ucs, r)
  | n + 1, ucs, r =>
    match buildRowValues table insertColumns fkPools enums overrides ucs r with
    | .error e => .error e
    | .ok (values, ucs1, r1) =>
      match seedRows table insertColumns fkPools enums overrides n ucs1 r1 with
      | .error e => .error e
      | .ok (rows, ucs2, r2) => .ok (values :: rows, ucs2, r2)

/-- `fkColumns` in `seedTable`: every column name participating in some
foreign key of the table. -/
def fkColumnNames (table : TableInfo) : List String :=
  table.fks.foldr (fun fk acc => fk.columns ++ acc) []

/-- The insert-column filter of `seedTable`: identity and generated columns
are dropped; a column with a (truthy) default is dropped unless it belongs to
a foreign key. -/
def insertColumnsOf (table : TableInfo) : List ColumnInfo :=
  table.columns.filter (fun column =>
    if column.isIdentity || column.isGenerated then false
    else if (column.columnDefault.getD "" != "") && !((fkColumnNames table).contains column.name) then false
    else true)

/-- The column list of the generated insert statement. -/
def insertColumnsSql (insertColumns : List ColumnInfo) : String :=
  String.intercalate ", " (insertColumns.map (fun column => quoteIdent column.name))

/-- The SQL text of one batched insert statement of `seedTable` (the
placeholder section is passed through, as its shape depends only on the batch
size). -/
def insertStatementSql (table : TableInfo) (rowsPlaceholders : String) : String :=
  "insert into " ++ quoteIdent table.schema ++ "." ++ quoteIdent table.name ++
    " (" ++ insertColumnsSql (insertColumnsOf table) ++ ") values " ++ rowsPlaceholders

/-- `Math.max(0, config.maxRecords - existing)`. -/
def targetOf (maxRecords : Int) (existing : Nat) : Nat :=
  (maxRecords - (existing : Int)).toNat

/-- `seedTable`, pure core (the non-dry-run path): count the existing rows,
validate the foreign-key pools, build the uniqueness state, and synthesize
the missing rows.  Storage reads are replaced by the `existingRows` and
`fkPools` inputs; the returned rows are the parameter tuples of the insert
statements (a table with no insert columns receives `target` empty rows via
`insert into ... default values`). -/
def seedTablePure (table : TableInfo) (maxRecords : Int)
    (existingRows : List (List (String × Value)))
    (fkPools : List (String × List (List Value))) (enums : EnumMap)
    (overrides : List (String × OverrideSpec)) (r : Rng) :
    Except String (List (List Value)) :=
  let existing := existingRows.length
  let target := targetOf maxRecords existing
  if target = 0 then .ok []
  else
    match validateForeignKeyPools table fkPools with
    | .error e => .error e
    | .ok _ =>
      let insertColumns := insertColumnsOf table
      let ucs0 := buildUniqueConstraintSets table insertColumns
      let ucs1 := loadUniqueConstraintValues existingRows ucs0
      let (ucs2, r1) := buildUniquePairQueues table fkPools ucs1 target r
      if insertColumns.isEmpty then .ok (List.replicate target [])
      else
        match seedRows table insertColumns fkPools enums overrides target ucs2 r1 with
        | .error e => .error e
        | .ok (rows, _, _) => .ok rows

/-! ## `runSeeder` : the dependency graph over the seed set -/

/-- `[...new Set(l)]`: deduplicate keeping first occurrences. -/
def jsSetOfStr (l : List String) : List String :=
  l.foldl (fun acc x => if acc.contains x then acc else acc ++ [x]) []

/-- The edge map of `runSeeder` and `topologicalSort`: a JS `Map` from parent
table name to the `Set` of child table names. -/
abbrev Edges : Type := List (String × List String)

/-- Adding one edge `from → to` to the map (`edges.get(from) ?? new Set()`,
`set.add(to)`, `edges.set(from, set)`). -/
def addEdge : Edges → String → String → Edges
  | [], f, t => [(f, [t])]
  | (k, l) :: rest, f, t =>
    if k = f then (k, if l.contains t then l else l ++ [t]) :: rest
    else (k, l) :: addEdge rest f t

/-- The edge-building loop of `runSeeder`: for every foreign key of every
table in the (filtered) seed set whose reference stays in the same schema and
whose referenced table is in the seed set, add the edge
`referenced table → referencing table`.  A self-referencing foreign key
contributes the self-edge `t → t`. -/
def buildSeedEdges (schema : String) (tables : List TableInfo) : Edges :=
  let names := tables.map (fun t => t.name)
  tables.foldl
    (fun edges table =>
      table.fks.foldl
        (fun edges fk =>
          if fk.refSchema = schema && names.contains fk.refTable then
            addEdge edges fk.refTable table.name
          else edges)
        edges)
    []

/-! ## `src/utils.ts` : `topologicalSort` (Kahn's algorithm)

The in-degree table is a JS `Map<string, number>` (an insertion-ordered
association list here, reusing `jsGet`/`jsSetAssoc`); degrees are integers
because the source decrements with plain JS arithmetic.  The `while (queue.length)`
loop is embedded with explicit fuel: every iteration pops the queue and, as
`kahnLoopF_measure_spec` below establishes, strictly decreases
`queue length + sum of positive degrees`, so the fuel chosen by `topoResult`
(that very measure) is never exhausted before the queue empties —
`kahnLoopF_fuel_high` makes this faithfulness argument precise. -/

/-- The in-degree map. -/
abbrev InDeg : Type := List (String × Int)

/-- The inner loop of the degree-counting phase: bump the degree of every
edge target that is present in the map. -/
def bumpTargets (m : InDeg) (tos : List String) : InDeg :=
  tos.foldl
    (fun m tgt =>
      match jsGet m tgt with
      | some d => jsSetAssoc m tgt (d + 1)
      | none => m)
    m

/-- The degree-counting phase: every node starts at zero (`initDeg` below),
then every edge whose source is in the map bumps its in-map targets. -/
def countDegrees (m0 : InDeg) (edges : Edges) : InDeg :=
  edges.foldl (fun m e => if (jsGet m e.1).isSome then bumpTargets m e.2 else m) m0

/-- All nodes at degree zero. -/
def initDeg (nodes : List String) : InDeg :=
  nodes.foldl (fun m n => jsSetAssoc m n 0) []

/-- The successor list of a node (`edges.get(node)`, or nothing). -/
def adjOf (edges : Edges) (node : String) : List String :=
  (jsGet edges node).getD []

/-- Processing one successor of a popped node: decrement its degree if it is
in the map and enqueue it when the new degree is exactly zero. -/
def decStep (st : InDeg × List String) (tgt : String) : InDeg × List String :=
  match jsGet st.1 tgt with
  | none => st
  | some d =>
    let m1 := jsSetAssoc st.1 tgt (d - 1)
    if d - 1 = 0 then (m1, st.2 ++ [tgt]) else (m1, st.2)

/-- Sum of the positive degrees. -/
def posSum (m : InDeg) : Nat := (m.map (fun p => p.2.toNat)).sum

/-- The termination measure of the Kahn loop. -/
def kahnMeasure (m : InDeg) (queue : List String) : Nat := queue.length + posSum m

/-- The `while (queue.length)` loop: pop the head (an empty string, being
falsy, aborts the loop like `if (!node) break`), append it to the result and
process its successors. -/
def kahnLoopF (edges : Edges) : Nat → InDeg → List String → List String → List String
  | 0, _, _, res => res
  | fuel + 1, m, queue, res =>
    match queue with
    | [] => res
    | node :: rest =>
      if node = "" then res
      else
        let st := (adjOf edges node).foldl decStep (m, rest)
        kahnLoopF edges fuel st.1 st.2 (res ++ [node])

/-- The order produced by the loop, from the initial degrees and queue. -/
def topoResult (nodes : List String) (edges : Edges) : List String :=
  let m := countDegrees (initDeg nodes) edges
  let queue := (m.filter (fun p => p.2 = 0)).map (fun p => p.1)
  kahnLoopF edges (kahnMeasure m queue) m queue []

/-- `topologicalSort`: the produced order, or — when its length differs from
the node count — the thrown cycle error, carrying the nodes that were not
placed (the `remaining` of the source; `cycleErrorMessage` renders the
message text). -/
def topologicalSort (nodes : List String) (edges : Edges) :
    Except (List String) (List String) :=
  let result := topoResult nodes edges
  if result.length ≠ nodes.length then
    .error (nodes.filter (fun node => !result.contains node))
  else .ok result

/-- The message of the cycle error thrown by `topologicalSort`. -/
def cycleErrorMessage (remaining : List String) : String :=
  "Cycle detected in table dependencies. Cyclic tables: " ++
    String.intercalate ", " remaining

/-- The sources of the edge entries that point at `k` and whose source is in
the node set: `k`'s in-degree, as counted by the degree phase, is their
number, and each pop of such a source decrements `k`'s degree once. -/
def predsE (nodes : List String) (edges : Edges) (k : String) : List String :=
  (edges.filter (fun e => nodes.contains e.1 && e.2.contains k)).map Prod.fst

/-- `p → k` is an edge of the graph restricted to the node set. -/
def EdgeRel (nodes : List String) (edges : Edges) (p k : String) : Prop :=
  p ∈ predsE nodes edges k ∧ k ∈ nodes

/-- The predecessors of `k` not yet placed in `res`: the current in-degree. -/
def remPreds (nodes : List String) (edges : Edges) (res : List String)
    (k : String) : List String :=
  (predsE nodes edges k).filter (fun p => decide (p ∉ res))

/-- The queue entries added while processing a popped node's successors: the
in-map successors whose degree was exactly 1. -/
def zerosOf (m : InDeg) (tos : List String) : List String :=
  tos.filter (fun t => decide (jsGet m t = some 1))

/-- The invariant carried through the Kahn loop: the in-degree map keys are
exactly the nodes, each degree counts the not-yet-placed predecessors, the
placed (`res`) and queued nodes are distinct nodes, queued nodes have all
predecessors placed, every node whose predecessors are all placed is
scheduled, and each placed node's predecessors are placed before it. -/
structure TopoInv (nodes : List String) (edges : Edges) (m : InDeg)
    (queue res : List String) : Prop where
  keys_eq : m.map Prod.fst = nodes
  deg : ∀ k ∈ nodes, jsGet m k = some ((remPreds nodes edges res k).length : Int)
  sched_sub : ∀ k ∈ res ++ queue, k ∈ nodes
  sched_nd : (res ++ queue).Nodup
  queue_zero : ∀ k ∈ queue, ∀ p ∈ predsE nodes edges k, p ∈ res
  ready_sched : ∀ k ∈ nodes, (∀ p ∈ predsE nodes edges k, p ∈ res) → k ∈ res ++ queue
  order : ∀ i (hi : i < res.length), ∀ p ∈ predsE nodes edges (res.get ⟨i, hi⟩),
    p ∈ res.take i

/-! ## `src/cli.ts` : configuration normalization -/

/-- The effective `maxRecords` of a CLI run: the config-file value overrides
the default of 50, the `--max-records` flag overrides both, and any result
above 50 is capped back to 50 (with a warning). -/
def resolveMaxRecords (fileValue cliValue : Option Int) : Int :=
  let merged :=
    match cliValue with
    | some v => v
    | none =>
      match fileValue with
      | some v => v
      | none => 50
  if merged > 50 then 50 else merged

/-! ## Concrete fixtures used by the claim theorems -/

/-- A stream that always yields 0. -/
def rngConst0 : Rng := ⟨fun _ => 0, 0⟩

/-- The `accounts` table of the spec's retry scenario: a single `email text
unique not null` column. -/
def accountsTable : TableInfo :=
  { schema := "public", name := "accounts",
    columns := [⟨"email", "text", "text", false, none, false, false, none, none, none⟩],
    pkColumns := [], fks := [],
    uniqueConstraints := [⟨"accounts_email_key", ["email"]⟩] }

/-- The override of the retry scenario: three candidate emails. -/
def accountsOverrides : List (String × OverrideSpec) :=
  [("accounts.email", ⟨none, some [.vstr "a", .vstr "b", .vstr "c"]⟩)]

/-- A `numeric(2,2)` column: such a column admits no digits before the
decimal point. -/
def decimalCol : ColumnInfo :=
  ⟨"amount", "numeric", "numeric", false, none, false, false, none, some 2, some 2⟩

/-- A stream that always yields 900. -/
def rngConst900 : Rng := ⟨fun _ => 900, 0⟩

/-- The default foreign key used by out-of-range `getD` accesses. -/
def fkDflt : ForeignKeyInfo := { columns := [], refSchema := "", refTable := "", refColumns := [] }

/-- The `notes` table: a single non-nullable text column. -/
def notesTable : TableInfo :=
  { schema := "public", name := "notes",
    columns := [⟨"note", "text", "text", false, none, false, false, none, none, none⟩],
    pkColumns := [], fks := [], uniqueConstraints := [] }

/-- The `memos` table: a single nullable text column. -/
def memosTable : TableInfo :=
  { schema := "public", name := "memos",
    columns := [⟨"memo", "text", "text", true, none, false, false, none, none, none⟩],
    pkColumns := [], fks := [], uniqueConstraints := [] }

/-- `orders(c int4 null)` with two foreign keys that share the local column
`c`: `c -> p1.x` (pool empty) and `c -> p2.y` (pool `[[5]]`). -/
def ordersTable : TableInfo :=
  { schema := "public", name := "orders",
    columns := [⟨"c", "integer", "int4", true, none, false, false, none, none, none⟩],
    pkColumns := [],
    fks := [⟨["c"], "public", "p1", ["x"]⟩, ⟨["c"], "public", "p2", ["y"]⟩],
    uniqueConstraints := [] }

def ordersPools : List (String × List (List Value)) :=
  [("public.p1:x", []), ("public.p2:y", [[.vint 5]])]

/-- `child(pid int4 not null)` with `pid -> parents.id`. -/
def childFkTable : TableInfo :=
  { schema := "public", name := "child",
    columns := [⟨"pid", "integer", "int4", false, none, false, false, none, none, none⟩],
    pkColumns := [],
    fks := [⟨["pid"], "public", "parents", ["id"]⟩],
    uniqueConstraints := [] }

/-- `memos_child(pid int4 null)` with `pid -> parents.id`. -/
def nullChildTable : TableInfo :=
  { schema := "public", name := "memos_child",
    columns := [⟨"pid", "integer", "int4", true, none, false, false, none, none, none⟩],
    pkColumns := [],
    fks := [⟨["pid"], "public", "parents", ["id"]⟩],
    uniqueConstraints := [] }

/-- `users(id, boss_id)` with the nullable self-referencing foreign key
`boss_id -> public.users.id`. -/
def usersSelfTable : TableInfo :=
  { schema := "public", name := "users",
    columns := [⟨"id", "integer", "int4", false, none, true, false, none, none, none⟩,
                ⟨"boss_id", "integer", "int4", true, none, false, false, none, none, none⟩],
    pkColumns := ["id"],
    fks := [⟨["boss_id"], "public", "users", ["id"]⟩],
    uniqueConstraints := [] }

/-! ## Claim theorems -/

theorem jskeyFind_none (c : String) :
    ∀ l : List (Nat × ColumnInfo),
      (l.map (fun p => (JsKey.col p.2, p.1))).find? (fun e => e.1 = JsKey.str c) = none := by
  intro l
  induction l with
  | nil => rfl
  | cons hd tl ih => simp [List.find?, ih]

theorem lookupIndices_objectKeyed_none (insertColumns : List ColumnInfo)
    (columns : List String) (h : columns ≠ []) :
    lookupIndices ((List.enum insertColumns).map (fun p => (JsKey.col p.2, p.1)))
      columns = none := by
  cases columns with
  | nil => exact absurd rfl h
  | cons c rest => simp [lookupIndices, jskeyFind_none c (List.enum insertColumns)]

/-- The root cause behind several claims: the index map of
`buildUniqueConstraintSets` is keyed by the `ColumnInfo` objects its caller
passes (the declared `String[]` parameter type is never checked at runtime),
while the probes use column-name strings, so every unique constraint is
dropped as `missing` and no uniqueness tracking ever happens. -/
theorem buildUniqueConstraintSets_empty (table : TableInfo)
    (insertColumns : List ColumnInfo) :
    buildUniqueConstraintSets table insertColumns = [] := by
  unfold buildUniqueConstraintSets
  generalize table.uniqueConstraints = l
  induction l with
  | nil => rfl
  | cons c rest ih =>
    rw [List.foldl_cons]
    by_cases hc : c.columns.length = 0
    · simpa [hc] using ih
    · have hne : c.columns ≠ [] := by
        intro hnil
        exact hc (by simp [hnil])
      simpa [hc, lookupIndices_objectKeyed_none insertColumns c.columns hne] using ih

/-- C1 (code bug): the uniqueness invariant is not maintained by the code.
`buildUniqueConstraintSets` always returns the empty tracker list — its JS
`Map` is keyed by the insert-column objects but probed with column-name
strings — so Uniqueness Sets are never seeded, no candidate row is ever
rejected, and no key is ever reserved.  Evaluating the pipeline on a table
with a unique non-null `email` column, one candidate value `"x"` and a target
of two rows synthesizes two rows with the identical non-null canonical key. -/
theorem c1_unique_tracking_dead :
    (∀ (table : TableInfo) (insertColumns : List ColumnInfo),
      buildUniqueConstraintSets table insertColumns = []) ∧
    seedTablePure accountsTable 2 [] [] [] [("email", ⟨none, some [.vstr "x"]⟩)] rngConst0 =
      .ok [[.vstr "x"], [.vstr "x"]] ∧
    buildUniqueKeyFromRow [.vstr "x"] [0] = some "[\"x\"]" ∧
    buildUniqueKeyFromRow [.vstr "x"] [0] ≠ none := by
  refine ⟨buildUniqueConstraintSets_empty, ?_, ?_, ?_⟩ <;> decide

/-- C5 (code bug): the retry scenario cannot fail because the unique
constraint is dropped (see `buildUniqueConstraintSets_empty`).  With the
`accounts` table, zero existing rows, a target of 10 and three override
candidates, the pipeline succeeds and inserts ten rows drawn from the three
candidates (here, a stream that always picks the first), instead of failing
after exhausting the retry bound.  The policy constants exist in the source —
one attempt without constraints, 25 with — but the 25-attempt path is
unreachable. -/
theorem c5_retry_scenario_code_bug :
    buildUniqueConstraintSets accountsTable (insertColumnsOf accountsTable) = [] ∧
    seedTablePure accountsTable 10 [] [] [] accountsOverrides rngConst0 =
      .ok (List.replicate 10 [.vstr "a"]) ∧
    retryAttemptsFor [] = 1 ∧
    (∀ (c : UCState) (ucs : List UCState), retryAttemptsFor (c :: ucs) = 25) := by
  refine ⟨buildUniqueConstraintSets_empty _ _, by decide, rfl, ?_⟩
  intro c ucs
  rfl

/-- C9: the effective per-table record target never exceeds 50: whatever
`maxRecords` the config file or the `--max-records` flag supplies, the merged
value is capped at 50, and with it the per-table missing-row target. -/
theorem c9_max_records_capped :
    ∀ (fileValue cliValue : Option Int) (existing : Nat),
      resolveMaxRecords fileValue cliValue ≤ 50 ∧
      (50 < (match cliValue with | some v => v | none => fileValue.getD 50) →
        resolveMaxRecords fileValue cliValue = 50) ∧
      targetOf (resolveMaxRecords fileValue cliValue) existing ≤ 50 := by
  intro fileValue cliValue existing
  unfold resolveMaxRecords targetOf
  cases cliValue with
  | some v =>
    refine ⟨?_, ?_, ?_⟩ <;> simp only [] <;> split <;> omega
  | none =>
    cases fileValue with
    | some w => refine ⟨?_, ?_, ?_⟩ <;> simp only [Option.getD] <;> split <;> omega
    | none => refine ⟨?_, ?_, ?_⟩ <;> simp only [Option.getD] <;> omega


/-- C8 counterexample: for declared precision 2 and scale 2 the column allows
`p − s = 0` digits before the decimal point, yet the generated value is
`900 / 10 ^ 2 = 9`, which has one: `Math.max(1, precision - scale)` grants at
least one integer digit for every `p ≤ s`. -/
theorem c8_decimal_bound_counterexample :
    (generateValue decimalCol [] none rngConst900).map (fun v => v.1) =
      .ok (.vfloat 900 2) ∧
    ¬ ((900 : ℚ) / (10 : ℚ) ^ (2 : Nat) < (10 : ℚ) ^ ((2 : Nat) - 2)) := by
  constructor
  · decide
  · norm_num

/-- C8 as amended: for a `numeric`/`decimal` column whose declared precision
exceeds its scale (`s < p`), whose name matches no text hint and whose udt
resolves to no enum, the generated value `k / 10 ^ s` satisfies
`0 ≤ k / 10 ^ s < 10 ^ (p − s)`, i.e. its digit count before the decimal
point cannot exceed `p − s`.  (The original claim, quantified over all `p`
and `s`, fails when `p ≤ s`; see the counterexample.) -/
theorem c8_decimal_bound_amended :
    ∀ (column : ColumnInfo) (p s : Nat) (enums : EnumMap) (r : Rng),
      column.dataType = "numeric" →
      column.udtName = "numeric" →
      column.numericPrecision = some p →
      column.numericScale = some s →
      hintTagFor column.name = none →
      (enums.isEmpty = false → jsGet enums "numeric" = none) →
      (enums.isEmpty = false → jsGet enums "public.numeric" = none) →
      s < p →
      ∃ (k : Nat) (r1 : Rng),
        generateValue column enums none r = .ok (.vfloat (k : Int) s, r1) ∧
        k ≤ (10 ^ (p - s) - 1) * 10 ^ s ∧
        0 ≤ (k : ℚ) / (10 : ℚ) ^ s ∧
        (k : ℚ) / (10 : ℚ) ^ s < (10 : ℚ) ^ (p - s) := by
  intro column p s enums r hdt hudt hp hs hname henum1 henum2 hps
  obtain ⟨name, dataTypeF, udtNameF, nullableF, cdF, iidF, igenF, mlF, npF, nsF⟩ := column
  simp only at hdt hudt hp hs hname
  subst hdt hudt hp hs
  have hmax : (max 1 ((p : Int) - (s : Int))).toNat = p - s := by omega
  have hpow : (0 : ℚ) < (10 : ℚ) ^ s := by positivity
  have henum : (if enums.isEmpty then none
       else
         match jsGet enums "numeric" with
         | some possible => if possible.isEmpty then none else some possible
         | none =>
           match jsGet enums ("public." ++ "numeric") with
           | some possible => if possible.isEmpty then none else some possible
           | none => none) = (none : Option (List String)) := by
    cases he : enums.isEmpty
    · have happ : "public." ++ "numeric" = "public.numeric" := rfl
      rw [happ, henum1 he, henum2 he]
      rfl
    · rfl
  refine ⟨r.take.1 % ((10 ^ (p - s) - 1) * 10 ^ s + 1), (r.take).2, ?_, ?_, ?_, ?_⟩
  · show genValueF ("numeric".length + 1) _ enums none r = _
    generalize "numeric".length = fuel
    simp only [genValueF]
    simp only [genScalar, show strToLower "numeric" = "numeric" from rfl,
      show strStarts "numeric" "_" = false from rfl,
      show strIncludes "numeric" "inet" = false from rfl,
      show strIncludes "numeric" "cidr" = false from rfl,
      show strIncludes "numeric" "uuid" = false from rfl,
      show strIncludes "numeric" "boolean" = false from rfl,
      show strIncludes "numeric" "integer" = false from rfl,
      show strIncludes "numeric" "bigint" = false from rfl,
      show strIncludes "numeric" "smallint" = false from rfl,
      show strIncludes "numeric" "numeric" = true from rfl,
      henum, hname, hmax]
    simp [fakerFloat, Rng.take]
    rw [hmax]
  · exact Nat.lt_succ_iff.mp (Nat.mod_lt _ (Nat.succ_pos _))
  · positivity
  · rw [div_lt_iff₀ hpow]
    have h1 : (1 : ℕ) ≤ 10 ^ (p - s) := Nat.one_le_pow _ _ (by norm_num)
    have hk : r.take.1 % ((10 ^ (p - s) - 1) * 10 ^ s + 1) ≤ (10 ^ (p - s) - 1) * 10 ^ s :=
      Nat.lt_succ_iff.mp (Nat.mod_lt _ (Nat.succ_pos _))
    have h2 : ((r.take.1 % ((10 ^ (p - s) - 1) * 10 ^ s + 1) : ℕ) : ℚ) ≤
        (((10 ^ (p - s) - 1) * 10 ^ s : ℕ) : ℚ) := Nat.cast_le.mpr hk
    push_cast [Nat.cast_sub h1] at h2
    nlinarith [hpow, h2]

/-! ### Null discipline of the value producer (claims C3, C4, C7) -/

theorem pickArr_mem {α : Type} (x : α) (l : List α) (d : α) (r : Rng) :
    (pickArr (x :: l) d r).1 ∈ x :: l := by
  show (x :: l).getD (r.take.1 % (x :: l).length) d ∈ x :: l
  have hlt : r.take.1 % (x :: l).length < (x :: l).length := Nat.mod_lt _ (by simp)
  simp only [List.getD_eq_getElem?_getD, List.getElem?_eq_getElem hlt, Option.getD_some]
  exact List.getElem_mem hlt

/-- The scalar type-driven generator never produces `null`. -/
theorem genScalar_ne_vnull (column : ColumnInfo) (enums : EnumMap) (r : Rng) :
    (genScalar column enums r).1 ≠ .vnull := by
  unfold genScalar
  repeat' split
  all_goals simp [apply_ite Prod.fst, ite_eq_iff]

/-- No branch of the type-to-value producer emits `null`: override candidate
lists are sampled as given (so a null there is the only way out), every other
branch builds a non-null constructor. -/
theorem genValueF_ne_vnull :
    ∀ (fuel : Nat) (column : ColumnInfo) (enums : EnumMap) (ov : Option OverrideSpec)
      (r : Rng) (v : Value) (r1 : Rng),
      (∀ p vs, ov = some p → p.values = some vs → Value.vnull ∉ vs) →
      genValueF fuel column enums ov r = .ok (v, r1) → v ≠ .vnull := by
  intro fuel column enums ov r v r1 hov h
  match fuel with
  | 0 =>
    simp only [genValueF] at h
    cases h
    simp
  | fuel + 1 =>
    simp only [genValueF] at h
    split at h
    · cases h
      intro hv
      refine hov _ _ rfl rfl ?_
      rw [← hv]
      exact pickArr_mem _ _ _ _
    · split at h
      · cases h
        simp
      · cases h
    · -- the override-free body: the array branch wraps in `varr`, the scalar
      -- branch never produces null (`genScalar_ne_vnull`)
      split at h
      · repeat' split at h
        all_goals try cases h
        all_goals simp
      · injection h with h2
        intro hv
        refine genScalar_ne_vnull column enums r ?_
        rw [h2, hv]

theorem jsGet_mem {α : Type} (m : List (String × α)) (k : String) (v : α)
    (h : jsGet m k = some v) : ∃ key, (key, v) ∈ m := by
  unfold jsGet at h
  cases hf : m.find? (fun e => e.1 = k) with
  | none => rw [hf] at h; cases h
  | some e =>
    rw [hf] at h
    cases h
    refine ⟨e.1, ?_⟩
    rw [Prod.mk.eta]
    exact List.mem_of_find?_eq_some hf

theorem resolveOverride_mem (overrides : List (String × OverrideSpec))
    (schema table column : String) (spec : OverrideSpec)
    (h : resolveOverride overrides schema table column = some spec) :
    ∃ key, (key, spec) ∈ overrides := by
  unfold resolveOverride at h
  repeat' split at h
  all_goals first
    | (cases h; rename_i hj; exact jsGet_mem _ _ _ hj)
    | exact jsGet_mem _ _ _ h


theorem idxOfStr_lt (name : String) :
    ∀ l : List String, name ∈ l → idxOfStr l name < l.length := by
  intro l
  induction l with
  | nil => intro h; cases h
  | cons x xs ih =>
    intro h
    by_cases hx : x = name
    · simp [idxOfStr, hx]
    · have : name ∈ xs := by
        cases h with
        | head => exact absurd rfl hx
        | tail _ hmem => exact hmem
      simp only [idxOfStr, hx, if_false, List.length_cons]
      have := ih this
      omega

theorem getD_mem {α : Type} (l : List α) (n : Nat) (d : α) (h : n < l.length) :
    l.getD n d ∈ l := by
  rw [List.getD_eq_getElem?_getD, List.getElem?_eq_getElem h, Option.getD_some]
  exact List.getElem_mem h

theorem lastFkIndex_spec (fks : List ForeignKeyInfo) (name : String) (fi : Nat)
    (h : lastFkIndex fks name = some fi) :
    fi < fks.length ∧ name ∈ (fks.getD fi fkDflt).columns := by
  unfold lastFkIndex at h
  cases hf : (List.enum fks).reverse.find? (fun e => e.2.columns.contains name) with
  | none => rw [hf] at h; cases h
  | some e =>
    rw [hf] at h
    cases h
    have hmem : e ∈ (List.enum fks).reverse := List.mem_of_find?_eq_some hf
    have hp : e.2.columns.contains name = true :=
      @List.find?_some (Nat × ForeignKeyInfo) (fun x => x.2.columns.contains name) e _ hf
    rw [List.mem_reverse] at hmem
    have hget : fks[e.1]? = some e.2 := by
      have := List.mem_enum_iff_getElem?.mp hmem
      exact this
    have hlt : e.1 < fks.length := by
      cases hlen : decide (e.1 < fks.length) with
      | true => exact of_decide_eq_true hlen
      | false =>
        exfalso
        have : fks.length ≤ e.1 := Nat.le_of_not_lt (of_decide_eq_false hlen)
        rw [List.getElem?_eq_none this] at hget
        cases hget
    refine ⟨hlt, ?_⟩
    have hgd : fks.getD e.1 fkDflt = e.2 := by
      rw [List.getD_eq_getElem?_getD, hget, Option.getD_some]
    rw [hgd]
    simpa using hp

theorem sampleAssignments_spec (fkPools : List (String × List (List Value))) :
    ∀ (fks : List ForeignKeyInfo) (r : Rng),
      (sampleAssignments fks fkPools r).1.length = fks.length ∧
      (∀ fi, fi < fks.length →
        (((sampleAssignments fks fkPools r).1.getD fi none = none ↔
          (jsGet fkPools (foreignKeyPoolKey (fks.getD fi fkDflt))).getD [] = []) ∧
        (∀ tuple, (sampleAssignments fks fkPools r).1.getD fi none = some tuple →
          tuple ∈ (jsGet fkPools (foreignKeyPoolKey (fks.getD fi fkDflt))).getD []))) := by
  intro fks
  induction fks with
  | nil =>
    intro r
    exact ⟨rfl, by intro fi h; cases h⟩
  | cons fk rest ih =>
    intro r
    unfold sampleAssignments
    cases hp : (jsGet fkPools (foreignKeyPoolKey fk)).getD [] with
    | nil =>
      simp only [hp, List.isEmpty_nil, if_true]
      obtain ⟨ihlen, ihspec⟩ := ih r
      refine ⟨by simp [ihlen], ?_⟩
      intro fi hfi
      cases fi with
      | zero => exact ⟨by simp [hp], by intro tuple h; cases h⟩
      | succ n =>
        have hn : n < rest.length := by simpa using hfi
        obtain ⟨hiff, himp⟩ := ihspec n hn
        exact ⟨by simpa using hiff, by intro tuple h; exact himp tuple (by simpa using h)⟩
    | cons t ts =>
      simp only [hp, List.isEmpty_cons, Bool.false_eq_true, if_false]
      obtain ⟨ihlen, ihspec⟩ := ih (pickArr (t :: ts) [] r).2
      refine ⟨by simp [ihlen], ?_⟩
      intro fi hfi
      cases fi with
      | zero =>
        refine ⟨by simp [hp], ?_⟩
        intro tuple h
        simp only [List.getD_eq_getElem?_getD, List.getElem?_cons_zero, Option.getD_some] at h ⊢
        cases h
        rw [hp]
        exact pickArr_mem t ts [] r
      | succ n =>
        have hn : n < rest.length := by simpa using hfi
        obtain ⟨hiff, himp⟩ := ihspec n hn
        exact ⟨by simpa using hiff, by intro tuple h; exact himp tuple (by simpa using h)⟩

theorem columnValue_null_nullable (table : TableInfo)
    (assignments : List (Option (List Value))) (enums : EnumMap)
    (overrides : List (String × OverrideSpec)) (column : ColumnInfo) (i : Nat)
    (r : Rng) (v : Value) (r1 : Rng)
    (hov : ∀ key spec, (key, spec) ∈ overrides → ∀ vs, spec.values = some vs →
      Value.vnull ∉ vs)
    (hass : ∀ fi tuple, assignments.getD fi none = some tuple →
      ∀ name, name ∈ (table.fks.getD fi fkDflt).columns →
        tuple.getD (idxOfStr (table.fks.getD fi fkDflt).columns name) Value.vnull ≠ .vnull)
    (h : columnValue table [] assignments enums overrides column i r = .ok (v, r1)) :
    v = .vnull → column.isNullable = true := by
  unfold columnValue at h
  have hpre : presetGet [] i = none := rfl
  rw [hpre] at h
  dsimp only at h
  cases hlf : lastFkIndex table.fks column.name with
  | some fi =>
    rw [hlf] at h
    dsimp only at h
    cases hget : assignments.getD fi none with
    | none =>
      rw [hget] at h
      dsimp only at h
      cases hnul : column.isNullable with
      | true => intro _; rfl
      | false =>
        rw [hnul] at h
        simp only [Bool.false_eq_true, if_false] at h
        cases h
    | some tuple =>
      rw [hget] at h
      dsimp only at h
      cases h
      intro hv
      obtain ⟨_, hmem⟩ := lastFkIndex_spec table.fks column.name fi hlf
      exact absurd hv (hass fi tuple hget column.name hmem)
  | none =>
    rw [hlf] at h
    dsimp only at h
    have hgen : ∀ (rg : Rng) (vg : Value) (rg1 : Rng), generateValue column enums
        (resolveOverride overrides table.schema table.name column.name) rg = .ok (vg, rg1) →
        vg ≠ .vnull := by
      intro rg vg rg1 hg
      refine genValueF_ne_vnull _ _ _ _ _ _ _ ?_ hg
      intro p vs hre hvs
      obtain ⟨key, hkey⟩ := resolveOverride_mem _ _ _ _ _ hre
      exact hov key p hkey vs hvs
    cases hnul : column.isNullable with
    | true => intro _; rfl
    | false =>
      rw [hnul] at h
      simp only [Bool.false_eq_true, if_false] at h
      intro hv
      exact absurd hv (hgen r v r1 h)

theorem fillColumns_null_nullable (table : TableInfo)
    (assignments : List (Option (List Value))) (enums : EnumMap)
    (overrides : List (String × OverrideSpec))
    (hov : ∀ key spec, (key, spec) ∈ overrides → ∀ vs, spec.values = some vs →
      Value.vnull ∉ vs)
    (hass : ∀ fi tuple, assignments.getD fi none = some tuple →
      ∀ name, name ∈ (table.fks.getD fi fkDflt).columns →
        tuple.getD (idxOfStr (table.fks.getD fi fkDflt).columns name) Value.vnull ≠ .vnull) :
    ∀ (cols : List ColumnInfo) (i : Nat) (r : Rng) (values : List Value) (r1 : Rng),
      fillColumns table [] assignments enums overrides cols i r = .ok (values, r1) →
      ∀ p ∈ values.zip cols, p.1 = .vnull → p.2.isNullable = true := by
  intro cols
  induction cols with
  | nil =>
    intro i r values r1 h p hp
    simp only [fillColumns] at h
    cases h
    cases hp
  | cons c rest ih =>
    intro i r values r1 h p hp
    simp only [fillColumns] at h
    cases hc : columnValue table [] assignments enums overrides c i r with
    | error e => rw [hc] at h; cases h
    | ok q =>
      obtain ⟨v, rv⟩ := q
      rw [hc] at h
      dsimp only at h
      cases hrest : fillColumns table [] assignments enums overrides rest (i + 1) rv with
      | error e => rw [hrest] at h; cases h
      | ok q2 =>
        obtain ⟨vs, r2⟩ := q2
        rw [hrest] at h
        dsimp only at h
        cases h
        rw [List.zip_cons_cons] at hp
        cases hp with
        | head => exact columnValue_null_nullable _ _ _ _ _ _ _ _ _ hov hass hc
        | tail _ hmem => exact ih _ _ _ _ hrest p hmem

theorem assignments_nonnull (table : TableInfo)
    (fkPools : List (String × List (List Value))) (r0 : Rng)
    (hpool : ∀ fk ∈ table.fks, ∀ tup ∈ (jsGet fkPools (foreignKeyPoolKey fk)).getD [],
      fk.columns.length ≤ tup.length ∧ Value.vnull ∉ tup) :
    ∀ fi tuple, (sampleAssignments table.fks fkPools r0).1.getD fi none = some tuple →
      ∀ name, name ∈ (table.fks.getD fi fkDflt).columns →
        tuple.getD (idxOfStr (table.fks.getD fi fkDflt).columns name) Value.vnull ≠ .vnull := by
  intro fi tuple hget name hname
  obtain ⟨hlen, hspec⟩ := sampleAssignments_spec fkPools table.fks r0
  have hfi : fi < table.fks.length := by
    by_contra hge
    have hnone : (sampleAssignments table.fks fkPools r0).1.getD fi none = none := by
      rw [List.getD_eq_getElem?_getD, List.getElem?_eq_none (by omega)]
      rfl
    rw [hnone] at hget
    cases hget
  obtain ⟨_, himp⟩ := hspec fi hfi
  have htup := himp tuple hget
  have hfk_mem : table.fks.getD fi fkDflt ∈ table.fks := getD_mem _ _ _ hfi
  obtain ⟨hlen2, hnn⟩ := hpool _ hfk_mem tuple htup
  have hidx : idxOfStr (table.fks.getD fi fkDflt).columns name < tuple.length :=
    lt_of_lt_of_le (idxOfStr_lt name _ hname) hlen2
  intro hv
  exact hnn (hv ▸ getD_mem tuple _ Value.vnull hidx)

theorem buildRowValues_nil_spec (table : TableInfo) (insertColumns : List ColumnInfo)
    (fkPools : List (String × List (List Value))) (enums : EnumMap)
    (overrides : List (String × OverrideSpec)) (r : Rng) (values : List Value)
    (ucs1 : List UCState) (r1 : Rng)
    (h : buildRowValues table insertColumns fkPools enums overrides [] r =
      .ok (values, ucs1, r1)) :
    ucs1 = [] ∧
    fillColumns table [] (sampleAssignments table.fks fkPools r).1 enums overrides
      insertColumns 0 (sampleAssignments table.fks fkPools r).2 = .ok (values, r1) := by
  unfold buildRowValues retryAttemptsFor at h
  simp only [List.isEmpty_nil, if_true] at h
  unfold buildRowLoop attemptRow at h
  have htp : takePresets [] = ([], []) := rfl
  rw [htp] at h
  dsimp only at h
  rcases hsa : sampleAssignments table.fks fkPools r with ⟨assignments2, r2⟩
  rw [hsa] at h
  dsimp only at h
  cases hf : fillColumns table [] assignments2 enums overrides insertColumns 0 r2 with
  | error e => rw [hf] at h; cases h
  | ok q =>
    obtain ⟨valuesF, rF⟩ := q
    rw [hf] at h
    dsimp only at h
    simp only [List.isEmpty_nil, if_true] at h
    cases h
    exact ⟨rfl, rfl⟩

theorem seedRows_nil_null (table : TableInfo) (insertColumns : List ColumnInfo)
    (fkPools : List (String × List (List Value))) (enums : EnumMap)
    (overrides : List (String × OverrideSpec))
    (hov : ∀ key spec, (key, spec) ∈ overrides → ∀ vs, spec.values = some vs →
      Value.vnull ∉ vs)
    (hpool : ∀ fk ∈ table.fks, ∀ tup ∈ (jsGet fkPools (foreignKeyPoolKey fk)).getD [],
      fk.columns.length ≤ tup.length ∧ Value.vnull ∉ tup) :
    ∀ (n : Nat) (r : Rng) (rows : List (List Value)) (ucs1 : List UCState) (r1 : Rng),
      seedRows table insertColumns fkPools enums overrides n [] r = .ok (rows, ucs1, r1) →
      ∀ row ∈ rows, ∀ p ∈ row.zip insertColumns, p.1 = .vnull → p.2.isNullable = true := by
  intro n
  induction n with
  | zero =>
    intro r rows ucs1 r1 h row hrow
    simp only [seedRows] at h
    cases h
    cases hrow
  | succ n ih =>
    intro r rows ucs1 r1 h row hrow
    simp only [seedRows] at h
    cases hb : buildRowValues table insertColumns fkPools enums overrides [] r with
    | error e => rw [hb] at h; cases h
    | ok p =>
      obtain ⟨values, ucsA, rA⟩ := p
      rw [hb] at h
      dsimp only at h
      obtain ⟨hucsA, hfill⟩ := buildRowValues_nil_spec _ _ _ _ _ _ _ _ _ hb
      subst hucsA
      cases hrest : seedRows table insertColumns fkPools enums overrides n [] rA with
      | error e => rw [hrest] at h; cases h
      | ok q =>
        obtain ⟨rows2, ucsB, rB⟩ := q
        rw [hrest] at h
        dsimp only at h
        cases h
        cases hrow with
        | head =>
          exact fillColumns_null_nullable table _ enums overrides hov
            (assignments_nonnull table fkPools r hpool) insertColumns 0 _ _ _ hfill
        | tail _ hmem => exact ih _ _ _ _ hrest row hmem

/-- C7 as amended: in every synthesized row of the seeding pipeline, null is
only ever assigned to columns declared nullable — provided override candidate
lists contain no explicit null and the loaded foreign-key pool tuples are
null-free and at least as long as their key's column list.  (The original
claim, over every configuration including overrides, fails: an override whose
candidate list contains null is sampled verbatim into non-nullable columns,
and a pool tuple containing null is copied into foreign-key columns — see the
counterexample.) -/
theorem c7_null_only_nullable_amended :
    ∀ (table : TableInfo) (maxRecords : Int)
      (existingRows : List (List (String × Value)))
      (fkPools : List (String × List (List Value))) (enums : EnumMap)
      (overrides : List (String × OverrideSpec)) (r : Rng) (rows : List (List Value)),
      (∀ key spec, (key, spec) ∈ overrides → ∀ vs, spec.values = some vs →
        Value.vnull ∉ vs) →
      (∀ fk ∈ table.fks, ∀ tup ∈ (jsGet fkPools (foreignKeyPoolKey fk)).getD [],
        fk.columns.length ≤ tup.length ∧ Value.vnull ∉ tup) →
      seedTablePure table maxRecords existingRows fkPools enums overrides r = .ok rows →
      ∀ row ∈ rows, ∀ p ∈ row.zip (insertColumnsOf table),
        p.1 = .vnull → p.2.isNullable = true := by
  intro table maxRecords existingRows fkPools enums overrides r rows hov hpool h row hrow
  unfold seedTablePure at h
  by_cases ht : targetOf maxRecords existingRows.length = 0
  · simp only [ht, if_true] at h
    cases h
    cases hrow
  · simp only [ht, if_false] at h
    cases hvd : validateForeignKeyPools table fkPools with
    | error e => rw [hvd] at h; cases h
    | ok u =>
      rw [hvd] at h
      dsimp only at h
      rw [buildUniqueConstraintSets_empty] at h
      have hl : loadUniqueConstraintValues existingRows [] = [] := rfl
      rw [hl] at h
      have hq : buildUniquePairQueues table fkPools []
          (targetOf maxRecords existingRows.length) r = ([], r) := rfl
      rw [hq] at h
      dsimp only at h
      by_cases hic : (insertColumnsOf table).isEmpty
      · simp only [hic, if_true] at h
        cases h
        have hrownil : row = [] := List.eq_of_mem_replicate hrow
        rw [hrownil]
        intro p hp
        cases hp
      · simp only [hic, Bool.false_eq_true, if_false] at h
        cases hs : seedRows table (insertColumnsOf table) fkPools enums overrides
            (targetOf maxRecords existingRows.length) [] r with
        | error e => rw [hs] at h; cases h
        | ok q =>
          obtain ⟨rows2, ucsB, rB⟩ := q
          rw [hs] at h
          dsimp only at h
          cases h
          exact seedRows_nil_null table _ fkPools enums overrides hov hpool _ _ _ _ _ hs
            row hrow


/-- C7 counterexample: an override whose candidate list is `[null]` assigns
null to the non-nullable `note` column of the synthesized row. -/
theorem c7_null_only_nullable_counterexample :
    seedTablePure notesTable 1 [] [] [] [("note", ⟨none, some [.vnull]⟩)] rngConst0 =
      .ok [[.vnull]] ∧
    (insertColumnsOf notesTable).map (fun c => c.isNullable) = [false] := by
  constructor <;> decide


theorem c7_null_only_nullable_witness :
    ((Value.vnull, (⟨"memo", "text", "text", true, none, false, false, none, none,
      none⟩ : ColumnInfo))).2.isNullable = true :=
  c7_null_only_nullable_amended memosTable 1 [] [] [] [] rngConst0 [[.vnull]]
    (by intro key spec hmem; cases hmem)
    (by intro fk hmem; cases hmem)
    (by decide)
    [Value.vnull] (by decide)
    (Value.vnull, ⟨"memo", "text", "text", true, none, false, false, none, none, none⟩)
    (by decide) rfl

/-! ### Foreign-key sampling discipline (claims C3 and C4) -/

theorem columnValue_fk (table : TableInfo) (assignments : List (Option (List Value)))
    (enums : EnumMap) (overrides : List (String × OverrideSpec)) (column : ColumnInfo)
    (i : Nat) (r : Rng) (v : Value) (r1 : Rng) (fi : Nat)
    (hlf : lastFkIndex table.fks column.name = some fi)
    (h : columnValue table [] assignments enums overrides column i r = .ok (v, r1)) :
    (assignments.getD fi none = none ∧ v = .vnull ∧ column.isNullable = true) ∨
    (∃ tuple, assignments.getD fi none = some tuple ∧
      v = tuple.getD (idxOfStr (table.fks.getD fi fkDflt).columns column.name) .vnull) := by
  unfold columnValue at h
  rw [show presetGet [] i = none from rfl] at h
  dsimp only at h
  rw [hlf] at h
  dsimp only at h
  cases hget : assignments.getD fi none with
  | none =>
    rw [hget] at h
    dsimp only at h
    cases hnul : column.isNullable with
    | true =>
      rw [hnul] at h
      simp only [if_true] at h
      cases h
      exact Or.inl ⟨rfl, rfl, rfl⟩
    | false =>
      rw [hnul] at h
      simp only [Bool.false_eq_true, if_false] at h
      cases h
  | some tuple =>
    rw [hget] at h
    dsimp only at h
    cases h
    exact Or.inr ⟨tuple, rfl, rfl⟩

theorem lastFkIndex_of_exclusive (fks : List ForeignKeyInfo) (fi : Nat) (name : String)
    (hfi : fi < fks.length) (hmem : name ∈ (fks.getD fi fkDflt).columns)
    (hexcl : ∀ j, j < fks.length → j ≠ fi → name ∉ (fks.getD j fkDflt).columns) :
    lastFkIndex fks name = some fi := by
  have hself : (fi, fks.getD fi fkDflt) ∈ List.enum fks := by
    rw [List.mem_enum_iff_getElem?]
    simp only [List.getD_eq_getElem?_getD, List.getElem?_eq_getElem hfi, Option.getD_some]
  unfold lastFkIndex
  cases hf : (List.enum fks).reverse.find? (fun e => e.2.columns.contains name) with
  | none =>
    exfalso
    have hall := List.find?_eq_none.mp hf (fi, fks.getD fi fkDflt)
      (by rw [List.mem_reverse]; exact hself)
    exact hall (by simpa using hmem)
  | some e =>
    have hmemE : e ∈ (List.enum fks).reverse := List.mem_of_find?_eq_some hf
    have hp : e.2.columns.contains name = true :=
      @List.find?_some (Nat × ForeignKeyInfo) (fun x => x.2.columns.contains name) e _ hf
    rw [List.mem_reverse, List.mem_enum_iff_getElem?] at hmemE
    have hltE : e.1 < fks.length := by
      cases hlen : decide (e.1 < fks.length) with
      | true => exact of_decide_eq_true hlen
      | false =>
        exfalso
        have : fks.length ≤ e.1 := Nat.le_of_not_lt (of_decide_eq_false hlen)
        rw [List.getElem?_eq_none this] at hmemE
        cases hmemE
    have hgd : fks.getD e.1 fkDflt = e.2 := by
      rw [List.getD_eq_getElem?_getD, hmemE, Option.getD_some]
    have hnameE : name ∈ (fks.getD e.1 fkDflt).columns := by
      rw [hgd]
      simpa using hp
    by_cases heq : e.1 = fi
    · simp [heq]
    · exact absurd hnameE (hexcl e.1 hltE heq)

theorem fillColumns_fk (table : TableInfo) (assignments : List (Option (List Value)))
    (enums : EnumMap) (overrides : List (String × OverrideSpec)) (fi : Nat)
    (hfi : fi < table.fks.length)
    (hexcl : ∀ j, j < table.fks.length → j ≠ fi →
      ∀ c ∈ (table.fks.getD fi fkDflt).columns, c ∉ (table.fks.getD j fkDflt).columns) :
    ∀ (cols : List ColumnInfo) (i : Nat) (r : Rng) (values : List Value) (r1 : Rng),
      fillColumns table [] assignments enums overrides cols i r = .ok (values, r1) →
      ∀ p ∈ values.zip cols, p.2.name ∈ (table.fks.getD fi fkDflt).columns →
        (assignments.getD fi none = none ∧ p.1 = .vnull ∧ p.2.isNullable = true) ∨
        (∃ tuple, assignments.getD fi none = some tuple ∧
          p.1 = tuple.getD (idxOfStr (table.fks.getD fi fkDflt).columns p.2.name) .vnull) := by
  intro cols
  induction cols with
  | nil =>
    intro i r values r1 h p hp
    simp only [fillColumns] at h
    cases h
    cases hp
  | cons c rest ih =>
    intro i r values r1 h p hp hname
    simp only [fillColumns] at h
    cases hc : columnValue table [] assignments enums overrides c i r with
    | error e => rw [hc] at h; cases h
    | ok q =>
      obtain ⟨v, rv⟩ := q
      rw [hc] at h
      dsimp only at h
      cases hrest : fillColumns table [] assignments enums overrides rest (i + 1) rv with
      | error e => rw [hrest] at h; cases h
      | ok q2 =>
        obtain ⟨vs, r2⟩ := q2
        rw [hrest] at h
        dsimp only at h
        cases h
        rw [List.zip_cons_cons] at hp
        cases hp with
        | head =>
          have hlf := lastFkIndex_of_exclusive table.fks fi c.name hfi hname
            (fun j hj hne => hexcl j hj hne c.name hname)
          exact columnValue_fk _ _ _ _ _ _ _ _ _ _ hlf hc
        | tail _ hmem => exact ih _ _ _ _ hrest p hmem hname

theorem buildRow_fk (table : TableInfo) (insertColumns : List ColumnInfo)
    (fkPools : List (String × List (List Value))) (enums : EnumMap)
    (overrides : List (String × OverrideSpec)) (fi : Nat)
    (hfi : fi < table.fks.length)
    (hexcl : ∀ j, j < table.fks.length → j ≠ fi →
      ∀ c ∈ (table.fks.getD fi fkDflt).columns, c ∉ (table.fks.getD j fkDflt).columns)
    (r : Rng) (values : List Value) (ucs1 : List UCState) (r1 : Rng)
    (h : buildRowValues table insertColumns fkPools enums overrides [] r =
      .ok (values, ucs1, r1)) :
    ((jsGet fkPools (foreignKeyPoolKey (table.fks.getD fi fkDflt))).getD [] = [] ∧
      ∀ p ∈ values.zip insertColumns, p.2.name ∈ (table.fks.getD fi fkDflt).columns →
        p.1 = .vnull ∧ p.2.isNullable = true) ∨
    (∃ tuple ∈ (jsGet fkPools (foreignKeyPoolKey (table.fks.getD fi fkDflt))).getD [],
      ∀ p ∈ values.zip insertColumns, p.2.name ∈ (table.fks.getD fi fkDflt).columns →
        p.1 = tuple.getD (idxOfStr (table.fks.getD fi fkDflt).columns p.2.name) .vnull) := by
  obtain ⟨-, hfill⟩ := buildRowValues_nil_spec _ _ _ _ _ _ _ _ _ h
  obtain ⟨hlen, hspec⟩ := sampleAssignments_spec fkPools table.fks r
  obtain ⟨hiff, himp⟩ := hspec fi hfi
  have hcol := fillColumns_fk table _ enums overrides fi hfi hexcl insertColumns 0 _ _ _ hfill
  cases hA : (sampleAssignments table.fks fkPools r).1.getD fi none with
  | none =>
    refine Or.inl ⟨hiff.mp hA, ?_⟩
    intro p hp hname
    cases hcol p hp hname with
    | inl hc => exact ⟨hc.2.1, hc.2.2⟩
    | inr hc =>
      obtain ⟨tuple, hsome, -⟩ := hc
      rw [hA] at hsome
      cases hsome
  | some tuple =>
    refine Or.inr ⟨tuple, himp tuple hA, ?_⟩
    intro p hp hname
    cases hcol p hp hname with
    | inl hc =>
      rw [hA] at hc
      cases hc.1
    | inr hc =>
      obtain ⟨tuple2, hsome, hv⟩ := hc
      rw [hA] at hsome
      cases hsome
      exact hv

theorem seedRows_fk (table : TableInfo) (insertColumns : List ColumnInfo)
    (fkPools : List (String × List (List Value))) (enums : EnumMap)
    (overrides : List (String × OverrideSpec)) (fi : Nat)
    (hfi : fi < table.fks.length)
    (hexcl : ∀ j, j < table.fks.length → j ≠ fi →
      ∀ c ∈ (table.fks.getD fi fkDflt).columns, c ∉ (table.fks.getD j fkDflt).columns) :
    ∀ (n : Nat) (r : Rng) (rows : List (List Value)) (ucs1 : List UCState) (r1 : Rng),
      seedRows table insertColumns fkPools enums overrides n [] r = .ok (rows, ucs1, r1) →
      ∀ row ∈ rows,
        ((jsGet fkPools (foreignKeyPoolKey (table.fks.getD fi fkDflt))).getD [] = [] ∧
          ∀ p ∈ row.zip insertColumns, p.2.name ∈ (table.fks.getD fi fkDflt).columns →
            p.1 = .vnull ∧ p.2.isNullable = true) ∨
        (∃ tuple ∈ (jsGet fkPools (foreignKeyPoolKey (table.fks.getD fi fkDflt))).getD [],
          ∀ p ∈ row.zip insertColumns, p.2.name ∈ (table.fks.getD fi fkDflt).columns →
            p.1 = tuple.getD (idxOfStr (table.fks.getD fi fkDflt).columns p.2.name) .vnull) := by
  intro n
  induction n with
  | zero =>
    intro r rows ucs1 r1 h row hrow
    simp only [seedRows] at h
    cases h
    cases hrow
  | succ n ih =>
    intro r rows ucs1 r1 h row hrow
    simp only [seedRows] at h
    cases hb : buildRowValues table insertColumns fkPools enums overrides [] r with
    | error e => rw [hb] at h; cases h
    | ok p =>
      obtain ⟨values, ucsA, rA⟩ := p
      rw [hb] at h
      dsimp only at h
      obtain ⟨hucsA, -⟩ := buildRowValues_nil_spec _ _ _ _ _ _ _ _ _ hb
      subst hucsA
      cases hrest : seedRows table insertColumns fkPools enums overrides n [] rA with
      | error e => rw [hrest] at h; cases h
      | ok q =>
        obtain ⟨rows2, ucsB, rB⟩ := q
        rw [hrest] at h
        dsimp only at h
        cases h
        cases hrow with
        | head => exact buildRow_fk _ _ _ _ _ _ hfi hexcl _ _ _ _ hb
        | tail _ hmem => exact ih _ _ _ _ hrest row hmem

/-- The shape of a successful `seedTablePure` run: nothing to do, the
default-values path, or a successful `seedRows` with the (always empty)
uniqueness state. -/
theorem seedTablePure_ok_cases (table : TableInfo) (maxRecords : Int)
    (existingRows : List (List (String × Value)))
    (fkPools : List (String × List (List Value))) (enums : EnumMap)
    (overrides : List (String × OverrideSpec)) (r : Rng) (rows : List (List Value))
    (h : seedTablePure table maxRecords existingRows fkPools enums overrides r = .ok rows) :
    rows = [] ∨
    ((insertColumnsOf table).isEmpty = true ∧
      rows = List.replicate (targetOf maxRecords existingRows.length) []) ∨
    (∃ ucs1 r1, seedRows table (insertColumnsOf table) fkPools enums overrides
      (targetOf maxRecords existingRows.length) [] r = .ok (rows, ucs1, r1)) := by
  unfold seedTablePure at h
  by_cases ht : targetOf maxRecords existingRows.length = 0
  · simp only [ht, if_true] at h
    cases h
    exact Or.inl rfl
  · simp only [ht, if_false] at h
    cases hvd : validateForeignKeyPools table fkPools with
    | error e => rw [hvd] at h; cases h
    | ok u =>
      rw [hvd] at h
      dsimp only at h
      rw [buildUniqueConstraintSets_empty] at h
      rw [show loadUniqueConstraintValues existingRows [] = [] from rfl] at h
      rw [show buildUniquePairQueues table fkPools []
          (targetOf maxRecords existingRows.length) r = ([], r) from rfl] at h
      dsimp only at h
      by_cases hic : (insertColumnsOf table).isEmpty
      · simp only [hic, if_true] at h
        cases h
        exact Or.inr (Or.inl ⟨hic, rfl⟩)
      · simp only [hic, Bool.false_eq_true, if_false] at h
        cases hs : seedRows table (insertColumnsOf table) fkPools enums overrides
            (targetOf maxRecords existingRows.length) [] r with
        | error e => rw [hs] at h; cases h
        | ok q =>
          obtain ⟨rows2, ucsB, rB⟩ := q
          rw [hs] at h
          dsimp only at h
          cases h
          exact Or.inr (Or.inr ⟨ucsB, rB, rfl⟩)

/-! ### C10 : insert-column selection -/

theorem fillColumns_length (table : TableInfo) (presets : List (Option Nat × Value))
    (assignments : List (Option (List Value))) (enums : EnumMap)
    (overrides : List (String × OverrideSpec)) :
    ∀ (cols : List ColumnInfo) (i : Nat) (r : Rng) (values : List Value) (r1 : Rng),
      fillColumns table presets assignments enums overrides cols i r = .ok (values, r1) →
      values.length = cols.length := by
  intro cols
  induction cols with
  | nil =>
    intro i r values r1 h
    simp only [fillColumns] at h
    cases h
    rfl
  | cons c rest ih =>
    intro i r values r1 h
    simp only [fillColumns] at h
    cases hc : columnValue table presets assignments enums overrides c i r with
    | error e => rw [hc] at h; cases h
    | ok p =>
      obtain ⟨v, rv⟩ := p
      rw [hc] at h
      dsimp only at h
      cases hrest : fillColumns table presets assignments enums overrides rest (i + 1) rv with
      | error e => rw [hrest] at h; cases h
      | ok q =>
        obtain ⟨vs, r2⟩ := q
        rw [hrest] at h
        dsimp only at h
        cases h
        simp only [List.length_cons]
        rw [ih _ _ _ _ hrest]

theorem buildRowValues_length (table : TableInfo) (insertColumns : List ColumnInfo)
    (fkPools : List (String × List (List Value))) (enums : EnumMap)
    (overrides : List (String × OverrideSpec)) :
    ∀ (n : Nat) (ucs : List UCState) (r : Rng) (values : List Value)
      (ucs1 : List UCState) (r1 : Rng),
      buildRowLoop table insertColumns fkPools enums overrides n ucs r = .ok (values, ucs1, r1) →
      values.length = insertColumns.length := by
  intro n
  induction n with
  | zero =>
    intro ucs r values ucs1 r1 h
    simp only [buildRowLoop] at h
    cases h
  | succ n ih =>
    intro ucs r values ucs1 r1 h
    simp only [buildRowLoop] at h
    cases ha : attemptRow table insertColumns fkPools enums overrides ucs r with
    | error e => rw [ha] at h; cases h
    | ok res =>
      obtain ⟨opt, ucsA, rA⟩ := res
      rw [ha] at h
      cases opt with
      | some vals =>
        dsimp only at h
        cases h
        unfold attemptRow at ha
        rcases htp : takePresets ucs with ⟨presets2, ucs2⟩
        rw [htp] at ha
        dsimp only at ha
        rcases hsa : sampleAssignments table.fks fkPools r with ⟨assignments2, r2⟩
        rw [hsa] at ha
        dsimp only at ha
        cases hf : fillColumns table presets2 assignments2 enums overrides insertColumns 0 r2 with
        | error e => rw [hf] at ha; cases ha
        | ok p =>
          obtain ⟨valuesF, rF⟩ := p
          rw [hf] at ha
          dsimp only at ha
          cases hu : ucs2.isEmpty with
          | true =>
            rw [hu] at ha
            simp only [if_true] at ha
            cases ha
            exact fillColumns_length _ _ _ _ _ _ _ _ _ _ hf
          | false =>
            rw [hu] at ha
            simp only [Bool.false_eq_true, if_false] at ha
            cases hp : collectPendingKeys valuesF ucs2 with
            | none => rw [hp] at ha; cases ha
            | some pending =>
              rw [hp] at ha
              dsimp only at ha
              cases ha
              exact fillColumns_length _ _ _ _ _ _ _ _ _ _ hf
      | none =>
        dsimp only at h
        exact ih _ _ _ _ _ h

theorem seedRows_row_length (table : TableInfo) (insertColumns : List ColumnInfo)
    (fkPools : List (String × List (List Value))) (enums : EnumMap)
    (overrides : List (String × OverrideSpec)) :
    ∀ (n : Nat) (ucs : List UCState) (r : Rng) (rows : List (List Value))
      (ucs1 : List UCState) (r1 : Rng),
      seedRows table insertColumns fkPools enums overrides n ucs r = .ok (rows, ucs1, r1) →
      ∀ row ∈ rows, row.length = insertColumns.length := by
  intro n
  induction n with
  | zero =>
    intro ucs r rows ucs1 r1 h row hrow
    simp only [seedRows] at h
    cases h
    cases hrow
  | succ n ih =>
    intro ucs r rows ucs1 r1 h row hrow
    simp only [seedRows] at h
    cases hb : buildRowValues table insertColumns fkPools enums overrides ucs r with
    | error e => rw [hb] at h; cases h
    | ok p =>
      obtain ⟨values, ucsA, rA⟩ := p
      rw [hb] at h
      dsimp only at h
      cases hrest : seedRows table insertColumns fkPools enums overrides n ucsA rA with
      | error e => rw [hrest] at h; cases h
      | ok q =>
        obtain ⟨rows2, ucsB, rB⟩ := q
        rw [hrest] at h
        dsimp only at h
        cases h
        cases hrow with
        | head => exact buildRowValues_length _ _ _ _ _ _ _ _ _ _ _ hb
        | tail _ hmem => exact ih _ _ _ _ _ hrest row hmem

/-- C10: the insert-column list excludes identity columns, generated columns
and defaulted columns outside every foreign key (a defaulted column that
belongs to a foreign key is kept); the generated insert statement names
exactly those columns in order, and every synthesized row supplies exactly
one value per insert column — excluded columns are never given a value. -/
theorem c10_insert_column_selection :
    (∀ (table : TableInfo) (column : ColumnInfo),
      column.columnDefault ≠ some "" →
      (column ∈ insertColumnsOf table ↔
        (column ∈ table.columns ∧ column.isIdentity = false ∧ column.isGenerated = false ∧
          (column.columnDefault ≠ none → column.name ∈ fkColumnNames table)))) ∧
    (∀ (table : TableInfo) (rowsPlaceholders : String),
      insertStatementSql table rowsPlaceholders =
        "insert into " ++ quoteIdent table.schema ++ "." ++ quoteIdent table.name ++ " (" ++
          String.intercalate ", " ((insertColumnsOf table).map (fun c => quoteIdent c.name)) ++
          ") values " ++ rowsPlaceholders) ∧
    (∀ (table : TableInfo) (maxRecords : Int)
      (existingRows : List (List (String × Value)))
      (fkPools : List (String × List (List Value))) (enums : EnumMap)
      (overrides : List (String × OverrideSpec)) (r : Rng) (rows : List (List Value)),
      seedTablePure table maxRecords existingRows fkPools enums overrides r = .ok rows →
      ∀ row ∈ rows, row.length = (insertColumnsOf table).length) := by
  refine ⟨?_, ?_, ?_⟩
  · intro table column hdef
    simp only [insertColumnsOf, List.mem_filter]
    constructor
    · rintro ⟨hmem, hpred⟩
      refine ⟨hmem, ?_, ?_, ?_⟩ <;>
        (first
          | (by_cases hid : column.isIdentity = true
             · simp [hid] at hpred
             · simp_all)
          | skip)
      all_goals
        by_cases hid : column.isIdentity <;> by_cases hgen : column.isGenerated <;>
          simp_all
      all_goals
        intro hdn
        by_cases hfk : column.name ∈ fkColumnNames table
        · exact hfk
        · exfalso
          cases hcd : column.columnDefault with
          | none => exact hdn hcd
          | some d =>
            have hd : d ≠ "" := by
              intro hde
              exact hdef (by rw [hcd, hde])
            simp_all
    · rintro ⟨hmem, hid, hgen, hfk⟩
      refine ⟨hmem, ?_⟩
      simp only [hid, hgen, Bool.or_self, Bool.false_eq_true, if_false]
      cases hcd : column.columnDefault with
      | none => simp
      | some d =>
        have := hfk (by rw [hcd]; exact Option.noConfusion)
        simp_all
  · intro table rowsPlaceholders
    rfl
  · intro table maxRecords existingRows fkPools enums overrides r rows h row hrow
    unfold seedTablePure at h
    by_cases ht : targetOf maxRecords existingRows.length = 0
    · simp only [ht, if_true] at h
      cases h
      cases hrow
    · simp only [ht, if_false] at h
      cases hv : validateForeignKeyPools table fkPools with
      | error e => rw [hv] at h; cases h
      | ok u =>
        rw [hv] at h
        by_cases hic : (insertColumnsOf table).isEmpty
        · simp only [hic, if_true] at h
          cases h
          have : row = [] := by
            have := List.eq_of_mem_replicate hrow
            exact this
          rw [this]
          simp [List.isEmpty_iff.mp hic]
        · simp only [hic, if_false] at h
          cases hs : seedRows table (insertColumnsOf table) fkPools enums overrides
              (targetOf maxRecords existingRows.length)
              (buildUniquePairQueues table fkPools
                (loadUniqueConstraintValues existingRows
                  (buildUniqueConstraintSets table (insertColumnsOf table)))
                (targetOf maxRecords existingRows.length) r).1
              (buildUniquePairQueues table fkPools
                (loadUniqueConstraintValues existingRows
                  (buildUniqueConstraintSets table (insertColumnsOf table)))
                (targetOf maxRecords existingRows.length) r).2 with
          | error e => rw [hs] at h; cases h
          | ok q =>
            rw [hs] at h
            obtain ⟨rows2, ucsB, rB⟩ := q
            cases h
            exact seedRows_row_length _ _ _ _ _ _ _ _ _ _ _ hs row hrow


/-! ### C3 / C4 : foreign-key values and empty pools -/


/-- C3, counterexample: with two foreign keys sharing local column `c`, the
seeded row holds `5` in `c` although the first foreign key's pool is empty:
for that foreign key the value is neither null nor a tuple of its pool (the
column picks its value from the last foreign key containing it). -/
theorem c3_fk_values_counterexample :
    seedTablePure ordersTable 1 [] ordersPools [] [] rngConst0 = .ok [[.vint 5]] ∧
    ordersTable.fks.getD 0 fkDflt = ⟨["c"], "public", "p1", ["x"]⟩ ∧
    (jsGet ordersPools (foreignKeyPoolKey (ordersTable.fks.getD 0 fkDflt))).getD [] = [] ∧
    Value.vint 5 ≠ Value.vnull := by
  refine ⟨by decide, by decide, by decide, by decide⟩

/-- C3 (amended): for every foreign key whose local columns belong to no other
foreign key of the table, every seeded row either holds null in all of that
key's local columns (then the key's pool is empty and those columns are
nullable) or matches, position for position, one single tuple of that key's
pool.  When local columns are shared, the last foreign key containing the
column wins, and the original claim fails (see the counterexample). -/
theorem c3_fk_values_amended (table : TableInfo) (maxRecords : Int)
    (existingRows : List (List (String × Value)))
    (fkPools : List (String × List (List Value))) (enums : EnumMap)
    (overrides : List (String × OverrideSpec)) (r : Rng) (rows : List (List Value))
    (fi : Nat) (hfi : fi < table.fks.length)
    (hexcl : ∀ j, j < table.fks.length → j ≠ fi →
      ∀ c ∈ (table.fks.getD fi fkDflt).columns, c ∉ (table.fks.getD j fkDflt).columns)
    (h : seedTablePure table maxRecords existingRows fkPools enums overrides r = .ok rows) :
    ∀ row ∈ rows,
      ((jsGet fkPools (foreignKeyPoolKey (table.fks.getD fi fkDflt))).getD [] = [] ∧
        ∀ p ∈ row.zip (insertColumnsOf table),
          p.2.name ∈ (table.fks.getD fi fkDflt).columns →
          p.1 = .vnull ∧ p.2.isNullable = true) ∨
      (∃ tuple ∈ (jsGet fkPools (foreignKeyPoolKey (table.fks.getD fi fkDflt))).getD [],
        ∀ p ∈ row.zip (insertColumnsOf table),
          p.2.name ∈ (table.fks.getD fi fkDflt).columns →
          p.1 = tuple.getD (idxOfStr (table.fks.getD fi fkDflt).columns p.2.name) .vnull) := by
  intro row hrow
  rcases seedTablePure_ok_cases _ _ _ _ _ _ _ _ h with hnil | ⟨-, hrep⟩ | ⟨ucs1, r1, hs⟩
  · subst hnil
    cases hrow
  · subst hrep
    have hempty : row = [] := List.eq_of_mem_replicate hrow
    subst hempty
    cases hp : (jsGet fkPools (foreignKeyPoolKey (table.fks.getD fi fkDflt))).getD [] with
    | nil =>
      refine Or.inl ⟨rfl, ?_⟩
      intro p hp2
      simp at hp2
    | cons t ts =>
      refine Or.inr ⟨t, List.mem_cons_self t ts, ?_⟩
      intro p hp2
      simp at hp2
  · exact seedRows_fk table _ fkPools enums overrides fi hfi hexcl _ _ _ _ _ hs row hrow

/-- C3, witness: a single foreign key `pid -> parents.id` with pool `[[7]]`
seeds the row `[7]`, which matches the pool tuple. -/
theorem c3_fk_values_witness :
    ((jsGet [("public.parents:id", [[Value.vint 7]])]
        (foreignKeyPoolKey (childFkTable.fks.getD 0 fkDflt))).getD [] = [] ∧
      ∀ p ∈ [Value.vint 7].zip (insertColumnsOf childFkTable),
        p.2.name ∈ (childFkTable.fks.getD 0 fkDflt).columns →
        p.1 = .vnull ∧ p.2.isNullable = true) ∨
    (∃ tuple ∈ (jsGet [("public.parents:id", [[Value.vint 7]])]
        (foreignKeyPoolKey (childFkTable.fks.getD 0 fkDflt))).getD [],
      ∀ p ∈ [Value.vint 7].zip (insertColumnsOf childFkTable),
        p.2.name ∈ (childFkTable.fks.getD 0 fkDflt).columns →
        p.1 = tuple.getD (idxOfStr (childFkTable.fks.getD 0 fkDflt).columns p.2.name)
          .vnull) :=
  c3_fk_values_amended childFkTable 1 [] [("public.parents:id", [[.vint 7]])] [] []
    rngConst0 [[.vint 7]] 0 (by decide)
    (fun j hj hne => absurd (Nat.lt_one_iff.mp hj) hne)
    (by decide)
    [Value.vint 7] (by decide)

theorem validateGo_error_of_offender (table : TableInfo)
    (fkPools : List (String × List (List Value))) :
    ∀ fks : List ForeignKeyInfo,
      (∃ fk ∈ fks, (jsGet fkPools (foreignKeyPoolKey fk)).getD [] = [] ∧
        fk.columns.any (fun columnName =>
          !(((table.columns.find? (fun c => c.name = columnName)).map
              (fun c => c.isNullable)).getD false)) = true) →
      ∃ e, validateForeignKeyPools.go table fkPools fks = .error e := by
  intro fks
  induction fks with
  | nil =>
    rintro ⟨fk, hmem, -⟩
    cases hmem
  | cons fk rest ih =>
    rintro ⟨fk2, hmem, hempty, hreq⟩
    unfold validateForeignKeyPools.go
    dsimp only
    cases hmem with
    | head =>
      rw [hempty]
      rw [if_neg (by simp), if_pos hreq]
      exact ⟨_, rfl⟩
    | tail _ hm =>
      have hrest := ih ⟨fk2, hm, hempty, hreq⟩
      by_cases hlen : ((jsGet fkPools (foreignKeyPoolKey fk)).getD []).length > 0
      · rw [if_pos hlen]
        exact hrest
      · rw [if_neg hlen]
        by_cases hr : (fk.columns.any (fun columnName =>
            !(((table.columns.find? (fun c => c.name = columnName)).map
                (fun c => c.isNullable)).getD false))) = true
        · rw [if_pos hr]
          exact ⟨_, rfl⟩
        · rw [if_neg hr]
          exact hrest

/-- C4 (amended): (1) if some foreign key's pool is empty while one of its
local columns is not nullable (or missing from the table), pool validation
fails; (2) a validation error aborts `seedTable` with that very error, before
any row is synthesized; (3) if seeding succeeds although the pool of a
foreign key (whose local columns belong to no other foreign key) is empty,
every seeded row holds null in all of that key's local columns.  The original
claim's second half fails when the local columns are shared with another
foreign key (see the counterexample). -/
theorem c4_empty_pool_amended :
    (∀ (table : TableInfo) (fkPools : List (String × List (List Value))),
      (∃ fk ∈ table.fks, (jsGet fkPools (foreignKeyPoolKey fk)).getD [] = [] ∧
        fk.columns.any (fun columnName =>
          !(((table.columns.find? (fun c => c.name = columnName)).map
              (fun c => c.isNullable)).getD false)) = true) →
      ∃ e, validateForeignKeyPools table fkPools = .error e) ∧
    (∀ (table : TableInfo) (maxRecords : Int)
      (existingRows : List (List (String × Value)))
      (fkPools : List (String × List (List Value))) (enums : EnumMap)
      (overrides : List (String × OverrideSpec)) (r : Rng) (e : String),
      targetOf maxRecords existingRows.length ≠ 0 →
      validateForeignKeyPools table fkPools = .error e →
      seedTablePure table maxRecords existingRows fkPools enums overrides r = .error e) ∧
    (∀ (table : TableInfo) (maxRecords : Int)
      (existingRows : List (List (String × Value)))
      (fkPools : List (String × List (List Value))) (enums : EnumMap)
      (overrides : List (String × OverrideSpec)) (r : Rng) (rows : List (List Value))
      (fi : Nat), fi < table.fks.length →
      (∀ j, j < table.fks.length → j ≠ fi →
        ∀ c ∈ (table.fks.getD fi fkDflt).columns, c ∉ (table.fks.getD j fkDflt).columns) →
      (jsGet fkPools (foreignKeyPoolKey (table.fks.getD fi fkDflt))).getD [] = [] →
      seedTablePure table maxRecords existingRows fkPools enums overrides r = .ok rows →
      ∀ row ∈ rows, ∀ p ∈ row.zip (insertColumnsOf table),
        p.2.name ∈ (table.fks.getD fi fkDflt).columns → p.1 = .vnull) := by
  refine ⟨?_, ?_, ?_⟩
  · intro table fkPools hoff
    unfold validateForeignKeyPools
    exact validateGo_error_of_offender table fkPools table.fks hoff
  · intro table maxRecords existingRows fkPools enums overrides r e ht hvd
    unfold seedTablePure
    rw [if_neg ht, hvd]
  · intro table maxRecords existingRows fkPools enums overrides r rows fi hfi hexcl hpool h
      row hrow p hp hname
    rcases seedTablePure_ok_cases _ _ _ _ _ _ _ _ h with hnil | ⟨-, hrep⟩ | ⟨ucs1, r1, hs⟩
    · subst hnil
      cases hrow
    · subst hrep
      have hempty : row = [] := List.eq_of_mem_replicate hrow
      subst hempty
      simp at hp
    · rcases seedRows_fk table _ fkPools enums overrides fi hfi hexcl _ _ _ _ _ hs row hrow
        with hL | ⟨tuple, htm, -⟩
      · exact (hL.2 p hp hname).1
      · rw [hpool] at htm
        cases htm

/-- C4, counterexample: all local columns of the first foreign key of `orders`
are nullable and its pool is empty, yet the seeded row receives `5`, not null,
in its local column `c` (another foreign key shares the column and supplies
the value). -/
theorem c4_empty_pool_counterexample :
    seedTablePure ordersTable 1 [] ordersPools [] [] rngConst0 = .ok [[.vint 5]] ∧
    (ordersTable.fks.getD 0 fkDflt).columns = ["c"] ∧
    (jsGet ordersPools (foreignKeyPoolKey (ordersTable.fks.getD 0 fkDflt))).getD [] = [] ∧
    (∀ c ∈ (ordersTable.fks.getD 0 fkDflt).columns,
      ((ordersTable.columns.find? (fun col => col.name = c)).map
        (fun col => col.isNullable)).getD false = true) ∧
    Value.vint 5 ≠ Value.vnull := by
  refine ⟨by decide, by decide, by decide, by decide, by decide⟩

/-- C4, witness: `child(pid not null)` with an empty pool fails validation and
seeding with the pool-empty error; `memos_child(pid null)` with an empty pool
seeds the row `[null]`. -/
theorem c4_empty_pool_witness :
    (∃ e, validateForeignKeyPools childFkTable [("public.parents:id", [])] = .error e) ∧
    seedTablePure childFkTable 1 [] [("public.parents:id", [])] [] [] rngConst0 =
      .error ("Foreign key pool empty for public.child -> public.parents. " ++
        "Seed parent table first or allow nulls on pid.") ∧
    (∀ row ∈ [[Value.vnull]], ∀ p ∈ row.zip (insertColumnsOf nullChildTable),
      p.2.name ∈ (nullChildTable.fks.getD 0 fkDflt).columns → p.1 = Value.vnull) := by
  refine ⟨?_, ?_, ?_⟩
  · exact c4_empty_pool_amended.1 childFkTable [("public.parents:id", [])] (by decide)
  · exact c4_empty_pool_amended.2.1 childFkTable 1 [] [("public.parents:id", [])] [] []
      rngConst0 _ (by decide) (by decide)
  · exact c4_empty_pool_amended.2.2 nullChildTable 1 [] [("public.parents:id", [])] [] []
      rngConst0 [[.vnull]] 0 (by decide)
      (fun j hj hne => absurd (Nat.lt_one_iff.mp hj) hne)
      (by decide) (by decide)

/-! ### Association-list lemmas -/

theorem jsGet_cons {α : Type} (e : String × α) (rest : List (String × α)) (k : String) :
    jsGet (e :: rest) k = if e.1 = k then some e.2 else jsGet rest k := by
  by_cases h : e.1 = k
  · simp [jsGet, List.find?_cons, h]
  · simp [jsGet, List.find?_cons, h]

theorem jsGet_mem' {α : Type} (m : List (String × α)) (k : String) (v : α)
    (h : jsGet m k = some v) : (k, v) ∈ m := by
  induction m with
  | nil => simp [jsGet] at h
  | cons e rest ih =>
    rw [jsGet_cons] at h
    by_cases he : e.1 = k
    · rw [if_pos he] at h
      cases h
      rw [← he]
      exact List.mem_cons_self e rest
    · rw [if_neg he] at h
      exact List.mem_cons_of_mem e (ih h)

theorem jsGet_isSome_iff {α : Type} (m : List (String × α)) (k : String) :
    (jsGet m k).isSome = true ↔ k ∈ m.map Prod.fst := by
  constructor
  · intro h
    obtain ⟨v, hv⟩ := Option.isSome_iff_exists.mp h
    exact List.mem_map.mpr ⟨(k, v), jsGet_mem' m k v hv, rfl⟩
  · intro h
    induction m with
    | nil => simp at h
    | cons e rest ih =>
      rw [jsGet_cons]
      by_cases he : e.1 = k
      · simp [he]
      · rw [if_neg he]
        rcases List.mem_map.mp h with ⟨x, hx, hxk⟩
        cases List.mem_cons.mp hx with
        | inl hh => exact absurd (hh ▸ hxk) he
        | inr hh => exact ih (List.mem_map.mpr ⟨x, hh, hxk⟩)

theorem jsGet_eq_of_nodup {α : Type} (m : List (String × α)) (e : String × α)
    (hnd : (m.map Prod.fst).Nodup) (he : e ∈ m) : jsGet m e.1 = some e.2 := by
  induction m with
  | nil => cases he
  | cons hd tl ih =>
    rw [jsGet_cons]
    cases List.mem_cons.mp he with
    | inl hh =>
      subst hh
      rw [if_pos rfl]
    | inr hh =>
      have hne : hd.1 ≠ e.1 := by
        intro hcontra
        exact (List.nodup_cons.mp hnd).1 (hcontra ▸ List.mem_map.mpr ⟨e, hh, rfl⟩)
      rw [if_neg hne]
      exact ih (List.nodup_cons.mp hnd).2 hh

theorem jsSetAssoc_map_fst {α : Type} (m : List (String × α)) (k : String) (v : α)
    (h : k ∈ m.map Prod.fst) : (jsSetAssoc m k v).map Prod.fst = m.map Prod.fst := by
  induction m with
  | nil => simp at h
  | cons e rest ih =>
    by_cases he : e.1 = k
    · simp only [jsSetAssoc, if_pos he, List.map_cons]
      rw [he]
    · simp only [jsSetAssoc, if_neg he, List.map_cons]
      rcases List.mem_map.mp h with ⟨x, hx, hxk⟩
      cases List.mem_cons.mp hx with
      | inl hh => exact absurd (hh ▸ hxk) he
      | inr hh => rw [ih (List.mem_map.mpr ⟨x, hh, hxk⟩)]

theorem jsGet_set_self {α : Type} (m : List (String × α)) (k : String) (v : α) :
    jsGet (jsSetAssoc m k v) k = some v := by
  induction m with
  | nil => simp [jsSetAssoc, jsGet]
  | cons e rest ih =>
    by_cases he : e.1 = k
    · simp [jsSetAssoc, if_pos he, jsGet_cons]
    · simp only [jsSetAssoc, if_neg he]
      rw [jsGet_cons, if_neg he]
      exact ih

theorem jsGet_set_ne {α : Type} (m : List (String × α)) (k k' : String) (v : α)
    (h : k ≠ k') : jsGet (jsSetAssoc m k v) k' = jsGet m k' := by
  induction m with
  | nil => simp [jsSetAssoc, jsGet_cons, h, jsGet]
  | cons e rest ih =>
    by_cases he : e.1 = k
    · simp only [jsSetAssoc, if_pos he]
      have h2 : e.1 ≠ k' := by
        rw [he]
        exact h
      rw [jsGet_cons, jsGet_cons, if_neg h, if_neg h2]
    · simp only [jsSetAssoc, if_neg he]
      rw [jsGet_cons, jsGet_cons]
      by_cases he' : e.1 = k'
      · rw [if_pos he', if_pos he']
      · rw [if_neg he', if_neg he', ih]

/-! ### `posSum` and the loop measure -/

theorem posSum_ge (m : InDeg) (k : String) (d : Int)
    (h : jsGet m k = some d) : d.toNat ≤ posSum m := by
  induction m with
  | nil => simp [jsGet] at h
  | cons e rest ih =>
    rw [jsGet_cons] at h
    simp only [posSum, List.map_cons, List.sum_cons]
    by_cases he : e.1 = k
    · rw [if_pos he] at h
      cases h
      omega
    · rw [if_neg he] at h
      have := ih h
      simp only [posSum] at this
      omega

theorem posSum_set (m : InDeg) (k : String) (d v : Int)
    (h : jsGet m k = some d) :
    posSum (jsSetAssoc m k v) = posSum m - d.toNat + v.toNat := by
  induction m with
  | nil => simp [jsGet] at h
  | cons e rest ih =>
    rw [jsGet_cons] at h
    by_cases he : e.1 = k
    · rw [if_pos he] at h
      cases h
      simp only [jsSetAssoc, if_pos he, posSum, List.map_cons, List.sum_cons]
      omega
    · rw [if_neg he] at h
      have hge := posSum_ge rest k d h
      have := ih h
      simp only [jsSetAssoc, if_neg he, posSum, List.map_cons, List.sum_cons]
      simp only [posSum] at this hge
      omega

theorem decStep_measure (st : InDeg × List String) (t : String) :
    kahnMeasure (decStep st t).1 (decStep st t).2 ≤ kahnMeasure st.1 st.2 := by
  obtain ⟨m, q⟩ := st
  unfold decStep
  cases hg : jsGet m t with
  | none => exact le_refl _
  | some d =>
    dsimp only
    have hps := posSum_set m t d (d - 1) hg
    have hge := posSum_ge m t d hg
    by_cases hz : d - 1 = 0
    · rw [if_pos hz]
      simp only [kahnMeasure, List.length_append, List.length_singleton]
      have hd1 : d = 1 := by omega
      subst hd1
      simp only [Int.toNat_one] at hps hge
      omega
    · rw [if_neg hz]
      simp only [kahnMeasure]
      omega

theorem foldDec_measure (tos : List String) :
    ∀ st : InDeg × List String,
      kahnMeasure (tos.foldl decStep st).1 (tos.foldl decStep st).2 ≤
        kahnMeasure st.1 st.2 := by
  induction tos with
  | nil =>
    intro st
    exact le_refl _
  | cons t rest ih =>
    intro st
    rw [List.foldl_cons]
    exact le_trans (ih (decStep st t)) (decStep_measure st t)

/-! ### Pointwise specification of the successor fold -/


theorem foldDec_spec (tos : List String) (hnd : tos.Nodup) :
    ∀ (m : InDeg) (q : List String),
      ((tos.foldl decStep (m, q)).1.map Prod.fst = m.map Prod.fst) ∧
      (∀ k, jsGet (tos.foldl decStep (m, q)).1 k =
        if k ∈ tos then (jsGet m k).map (fun x => x - 1) else jsGet m k) ∧
      (tos.foldl decStep (m, q)).2 = q ++ zerosOf m tos := by
  induction tos with
  | nil =>
    intro m q
    refine ⟨rfl, ?_, by simp [zerosOf]⟩
    intro k
    simp
  | cons t rest ih =>
    intro m q
    rw [List.foldl_cons]
    have hnd' := List.nodup_cons.mp hnd
    cases hg : jsGet m t with
    | none =>
      have hstep : decStep (m, q) t = (m, q) := by
        unfold decStep
        rw [hg]
      rw [hstep]
      obtain ⟨hkeys, hpt, hq⟩ := ih hnd'.2 m q
      refine ⟨hkeys, ?_, ?_⟩
      · intro k
        rw [hpt k]
        by_cases hk : k ∈ t :: rest
        · cases List.mem_cons.mp hk with
          | inl hh =>
            subst hh
            rw [if_neg hnd'.1, if_pos hk, hg]
            rfl
          | inr hh => rw [if_pos hh, if_pos hk]
        · rw [if_neg (fun hh => hk (List.mem_cons_of_mem t hh)), if_neg hk]
      · rw [hq]
        have hzc : zerosOf m (t :: rest) = zerosOf m rest := by
          simp only [zerosOf, List.filter_cons]
          rw [hg]
          simp
        rw [hzc]
    | some d =>
      have hkm : t ∈ m.map Prod.fst := (jsGet_isSome_iff m t).mp (by rw [hg]; rfl)
      have hkeys1 : (jsSetAssoc m t (d - 1)).map Prod.fst = m.map Prod.fst :=
        jsSetAssoc_map_fst m t (d - 1) hkm
      have hptm1 : ∀ k, jsGet (jsSetAssoc m t (d - 1)) k =
          if k = t then some (d - 1) else jsGet m k := by
        intro k
        by_cases hk : k = t
        · subst hk
          rw [if_pos rfl, jsGet_set_self]
        · rw [if_neg hk, jsGet_set_ne m t k _ (fun hh => hk hh.symm)]
      have hzeros : zerosOf (jsSetAssoc m t (d - 1)) rest = zerosOf m rest := by
        unfold zerosOf
        apply List.filter_congr
        intro x hx
        have hxt : ¬ x = t := fun hh => hnd'.1 (hh ▸ hx)
        rw [hptm1 x, if_neg hxt]
      have hcomb : ∀ q1 : List String,
          ((rest.foldl decStep (jsSetAssoc m t (d - 1), q1)).1.map Prod.fst =
            m.map Prod.fst) ∧
          (∀ k, jsGet (rest.foldl decStep (jsSetAssoc m t (d - 1), q1)).1 k =
            if k ∈ t :: rest then (jsGet m k).map (fun x => x - 1) else jsGet m k) ∧
          (rest.foldl decStep (jsSetAssoc m t (d - 1), q1)).2 =
            q1 ++ zerosOf m rest := by
        intro q1
        obtain ⟨hkeys, hpt, hq⟩ := ih hnd'.2 (jsSetAssoc m t (d - 1)) q1
        refine ⟨by rw [hkeys, hkeys1], ?_, by rw [hq, hzeros]⟩
        intro k
        rw [hpt k]
        by_cases hk : k = t
        · subst hk
          rw [if_neg hnd'.1, if_pos (List.mem_cons_self _ _), hptm1 _, if_pos rfl, hg]
          rfl
        · rw [hptm1 k, if_neg hk]
          by_cases hk2 : k ∈ rest
          · rw [if_pos hk2, if_pos (List.mem_cons_of_mem _ hk2)]
          · rw [if_neg hk2, if_neg (by simp [hk, hk2])]
      by_cases hz : d - 1 = 0
      · have hstep : decStep (m, q) t = (jsSetAssoc m t (d - 1), q ++ [t]) := by
          unfold decStep
          rw [hg]
          dsimp only
          rw [if_pos hz]
        rw [hstep]
        obtain ⟨h1, h2, h3⟩ := hcomb (q ++ [t])
        refine ⟨h1, h2, ?_⟩
        rw [h3]
        have hd1 : d = 1 := by omega
        have hzc : zerosOf m (t :: rest) = t :: zerosOf m rest := by
          unfold zerosOf
          rw [List.filter_cons, hg, hd1]
          simp
        rw [hzc, List.append_assoc]
        rfl
      · have hstep : decStep (m, q) t = (jsSetAssoc m t (d - 1), q) := by
          unfold decStep
          rw [hg]
          dsimp only
          rw [if_neg hz]
        rw [hstep]
        obtain ⟨h1, h2, h3⟩ := hcomb q
        refine ⟨h1, h2, ?_⟩
        rw [h3]
        have hzc : zerosOf m (t :: rest) = zerosOf m rest := by
          unfold zerosOf
          rw [List.filter_cons, hg]
          simp only [decide_eq_true_eq]
          rw [if_neg (fun hh : some d = some (1 : Int) => hz (by cases hh; rfl))]
        rw [hzc]

/-! ### The predecessor lists and the loop invariant -/


theorem predsE_nodup (nodes : List String) (edges : Edges) (k : String)
    (hed : (edges.map Prod.fst).Nodup) : (predsE nodes edges k).Nodup :=
  hed.sublist (List.Sublist.map Prod.fst (List.filter_sublist edges))

theorem predsE_sources (nodes : List String) (edges : Edges) (k p : String)
    (h : p ∈ predsE nodes edges k) : p ∈ nodes := by
  rcases List.mem_map.mp h with ⟨e, he, hfst⟩
  have := (List.mem_filter.mp he).2
  rw [Bool.and_eq_true] at this
  rw [← hfst]
  exact List.mem_of_elem_eq_true this.1

theorem predsE_sub_srcs (nodes : List String) (edges : Edges) (k p : String)
    (h : p ∈ predsE nodes edges k) : p ∈ edges.map Prod.fst := by
  rcases List.mem_map.mp h with ⟨e, he, hfst⟩
  exact hfst ▸ List.mem_map.mpr ⟨e, (List.mem_filter.mp he).1, rfl⟩

theorem mem_predsE_iff (nodes : List String) (edges : Edges) (k node : String)
    (hed : (edges.map Prod.fst).Nodup) (hn : node ∈ nodes) :
    node ∈ predsE nodes edges k ↔ k ∈ adjOf edges node := by
  constructor
  · intro h
    rcases List.mem_map.mp h with ⟨e, he, hfst⟩
    have hmem := (List.mem_filter.mp he).1
    have hp := (List.mem_filter.mp he).2
    rw [Bool.and_eq_true] at hp
    have hget : jsGet edges e.1 = some e.2 := jsGet_eq_of_nodup edges e hed hmem
    rw [hfst] at hget
    unfold adjOf
    rw [hget]
    exact List.mem_of_elem_eq_true hp.2
  · intro h
    unfold adjOf at h
    cases hget : jsGet edges node with
    | none =>
      rw [hget] at h
      cases h
    | some tos =>
      rw [hget] at h
      have hmem : (node, tos) ∈ edges := jsGet_mem' edges node tos hget
      refine List.mem_map.mpr ⟨(node, tos), List.mem_filter.mpr ⟨hmem, ?_⟩, rfl⟩
      rw [Bool.and_eq_true]
      exact ⟨List.elem_eq_true_of_mem hn, List.elem_eq_true_of_mem h⟩

theorem eq_singleton_of_nodup (l : List String) (a : String) (hnd : l.Nodup)
    (hmem : a ∈ l) (hall : ∀ x ∈ l, x = a) : l = [a] := by
  cases l with
  | nil => cases hmem
  | cons x rest =>
    have hx : x = a := hall x (List.mem_cons_self x rest)
    subst hx
    cases rest with
    | nil => rfl
    | cons y rest2 =>
      have hy : y = x := hall y (List.mem_cons_of_mem x (List.mem_cons_self y rest2))
      exfalso
      exact (List.nodup_cons.mp hnd).1 (hy ▸ List.mem_cons_self y rest2)


theorem TopoInv.res_preds {nodes : List String} {edges : Edges} {m : InDeg}
    {queue res : List String} (inv : TopoInv nodes edges m queue res)
    (k : String) (hk : k ∈ res) : ∀ p ∈ predsE nodes edges k, p ∈ res := by
  rcases List.mem_iff_get.mp hk with ⟨⟨i, hi⟩, hget⟩
  intro p hp
  exact List.take_subset i res (inv.order i hi p (hget ▸ hp))

theorem mem_remPreds (nodes : List String) (edges : Edges) (res : List String)
    (k p : String) :
    p ∈ remPreds nodes edges res k ↔ p ∈ predsE nodes edges k ∧ p ∉ res := by
  simp [remPreds, List.mem_filter]

theorem remPreds_nodup (nodes : List String) (edges : Edges) (res : List String)
    (k : String) (hed : (edges.map Prod.fst).Nodup) :
    (remPreds nodes edges res k).Nodup :=
  (predsE_nodup nodes edges k hed).filter _

theorem filter_notmem_append_singleton (res : List String) (a : String) :
    ∀ l : List String, l.Nodup → a ∈ l → a ∉ res →
    (l.filter (fun p => decide (p ∉ res))).length =
      (l.filter (fun p => decide (p ∉ res ++ [a]))).length + 1 := by
  intro l
  induction l with
  | nil =>
    intro _ ha _
    cases ha
  | cons x rest ih =>
    intro hnd ha hares
    rw [List.filter_cons, List.filter_cons]
    by_cases hxa : x = a
    · subst hxa
      rw [if_pos (by simpa using hares), if_neg (by simp)]
      have hrest : rest.filter (fun p => decide (p ∉ res)) =
          rest.filter (fun p => decide (p ∉ res ++ [x])) := by
        apply List.filter_congr
        intro p hp
        have hpx : ¬ p = x := fun hh => (List.nodup_cons.mp hnd).1 (hh ▸ hp)
        exact decide_eq_decide.mpr (by simp [List.mem_append, hpx])
      rw [List.length_cons, hrest]
    · have ha' : a ∈ rest := by
        cases List.mem_cons.mp ha with
        | inl hh => exact absurd hh.symm hxa
        | inr hh => exact hh
      have hx : (decide (x ∉ res ++ [a])) = (decide (x ∉ res)) :=
        decide_eq_decide.mpr (by simp [List.mem_append, hxa])
      rw [hx]
      by_cases hxr : (decide (x ∉ res)) = true
      · rw [if_pos hxr, if_pos hxr, List.length_cons, List.length_cons,
          ih (List.nodup_cons.mp hnd).2 ha' hares]
      · rw [if_neg hxr, if_neg hxr, ih (List.nodup_cons.mp hnd).2 ha' hares]

theorem topoInv_step_core (nodes : List String) (edges : Edges)
    (hed : (edges.map Prod.fst).Nodup)
    (m : InDeg) (node : String) (rest res : List String) (m' : InDeg)
    (q' : List String)
    (inv : TopoInv nodes edges m (node :: rest) res)
    (htosnd : (adjOf edges node).Nodup)
    (hkeys : m'.map Prod.fst = m.map Prod.fst)
    (hpt : ∀ k, jsGet m' k =
      if k ∈ adjOf edges node then (jsGet m k).map (fun x => x - 1) else jsGet m k)
    (hq : q' = rest ++ zerosOf m (adjOf edges node)) :
    TopoInv nodes edges m' q' (res ++ [node]) := by
  have hnode : node ∈ nodes :=
    inv.sched_sub node (List.mem_append_right res (List.mem_cons_self node rest))
  have hndapp := List.nodup_append.mp inv.sched_nd
  have hnodenres : node ∉ res := fun hmem => hndapp.2.2 hmem (List.mem_cons_self _ _)
  have hadj : ∀ k, node ∈ predsE nodes edges k ↔ k ∈ adjOf edges node :=
    fun k => mem_predsE_iff nodes edges k node hed hnode
  have hzeros_mem : ∀ k, k ∈ zerosOf m (adjOf edges node) ↔
      (k ∈ adjOf edges node ∧ jsGet m k = some 1) := by
    intro k
    simp [zerosOf, List.mem_filter]
  have hnodepreds : ∀ p ∈ predsE nodes edges node, p ∈ res :=
    inv.queue_zero node (List.mem_cons_self node rest)
  have hrem_nil : ∀ k, (∀ p ∈ predsE nodes edges k, p ∈ res) →
      remPreds nodes edges res k = [] := by
    intro k hallp
    unfold remPreds
    rw [List.filter_eq_nil_iff]
    intro p hp
    simp only [decide_eq_true_eq]
    exact not_not_intro (hallp p hp)
  have hsched_zero : ∀ k ∈ res ++ node :: rest, jsGet m k = some 0 := by
    intro k hk
    have hkn : k ∈ nodes := inv.sched_sub k hk
    have hallp : ∀ p ∈ predsE nodes edges k, p ∈ res := by
      cases List.mem_append.mp hk with
      | inl hres => exact inv.res_preds k hres
      | inr hqueue => exact inv.queue_zero k hqueue
    have hd := inv.deg k hkn
    rw [hrem_nil k hallp] at hd
    simpa using hd
  have hzeros_nodes : ∀ k ∈ zerosOf m (adjOf edges node), k ∈ nodes := by
    intro k hk
    have h1 := ((hzeros_mem k).mp hk).2
    have : (jsGet m k).isSome = true := by rw [h1]; rfl
    rw [jsGet_isSome_iff, inv.keys_eq] at this
    exact this
  refine ⟨?_, ?_, ?_, ?_, ?_, ?_, ?_⟩
  · -- keys_eq
    rw [hkeys, inv.keys_eq]
  · -- deg
    intro k hk
    rw [hpt k]
    by_cases hkt : k ∈ adjOf edges node
    · rw [if_pos hkt, inv.deg k hk]
      have hnp : node ∈ predsE nodes edges k := (hadj k).mpr hkt
      have hlen := filter_notmem_append_singleton res node (predsE nodes edges k)
        (predsE_nodup nodes edges k hed) hnp hnodenres
      show some (((remPreds nodes edges res k).length : Int) - 1) = _
      have : ((remPreds nodes edges res k).length : Int) - 1 =
          ((remPreds nodes edges (res ++ [node]) k).length : Int) := by
        unfold remPreds
        omega
      rw [this]
    · rw [if_neg hkt, inv.deg k hk]
      have : remPreds nodes edges (res ++ [node]) k = remPreds nodes edges res k := by
        unfold remPreds
        apply List.filter_congr
        intro p hp
        have hpn : ¬ p = node := by
          intro hh
          exact hkt ((hadj k).mp (hh ▸ hp))
        exact decide_eq_decide.mpr (by simp [List.mem_append, hpn])
      rw [this]
  · -- sched_sub
    intro k hk
    rcases List.mem_append.mp hk with h1 | h2
    · rcases List.mem_append.mp h1 with h3 | h4
      · exact inv.sched_sub k (List.mem_append_left _ h3)
      · rw [List.mem_singleton.mp h4]
        exact hnode
    · rw [hq] at h2
      rcases List.mem_append.mp h2 with h3 | h4
      · exact inv.sched_sub k (List.mem_append_right _ (List.mem_cons_of_mem _ h3))
      · exact hzeros_nodes k h4
  · -- sched_nd
    rw [hq]
    have hshape : (res ++ [node]) ++ (rest ++ zerosOf m (adjOf edges node)) =
        (res ++ node :: rest) ++ zerosOf m (adjOf edges node) := by
      simp only [List.append_assoc, List.cons_append, List.singleton_append,
        List.nil_append]
    rw [hshape]
    rw [List.nodup_append]
    refine ⟨inv.sched_nd, htosnd.filter _, ?_⟩
    intro x hx hxz
    have h1 := ((hzeros_mem x).mp hxz).2
    have h0 := hsched_zero x hx
    rw [h0] at h1
    cases h1
  · -- queue_zero
    intro k hk p hp
    rw [hq] at hk
    rcases List.mem_append.mp hk with h1 | h2
    · exact List.mem_append_left _ (inv.queue_zero k (List.mem_cons_of_mem _ h1) p hp)
    · obtain ⟨hktos, hk1⟩ := (hzeros_mem k).mp h2
      have hkn : k ∈ nodes := hzeros_nodes k h2
      have hd := inv.deg k hkn
      rw [hk1] at hd
      have hc1 : (remPreds nodes edges res k).length = 1 := by
        have := Option.some.inj hd
        omega
      obtain ⟨a, ha⟩ := List.length_eq_one.mp hc1
      have hnp : node ∈ remPreds nodes edges res k :=
        (mem_remPreds nodes edges res k node).mpr ⟨(hadj k).mpr hktos, hnodenres⟩
      rw [ha] at hnp
      have han : a = node := (List.mem_singleton.mp hnp).symm
      subst han
      by_cases hpres : p ∈ res
      · exact List.mem_append_left _ hpres
      · have : p ∈ remPreds nodes edges res k :=
          (mem_remPreds nodes edges res k p).mpr ⟨hp, hpres⟩
        rw [ha] at this
        rw [List.mem_singleton.mp this]
        exact List.mem_append_right _ (List.mem_singleton_self _)
  · -- ready_sched
    intro k hk hall
    by_cases hres : k ∈ res ++ node :: rest
    · rcases List.mem_append.mp hres with h1 | h2
      · exact List.mem_append_left _ (List.mem_append_left _ h1)
      · rcases List.mem_cons.mp h2 with h3 | h4
        · exact List.mem_append_left _
            (List.mem_append_right _ (h3 ▸ List.mem_singleton_self _))
        · exact List.mem_append_right _ (hq ▸ List.mem_append_left _ h4)
    · have hnotall : ¬ ∀ p ∈ predsE nodes edges k, p ∈ res :=
        fun hcontra => hres (inv.ready_sched k hk hcontra)
      push_neg at hnotall
      obtain ⟨p0, hp0mem, hp0res⟩ := hnotall
      have hp0node : p0 = node := by
        rcases List.mem_append.mp (hall p0 hp0mem) with h | h
        · exact absurd h hp0res
        · exact List.mem_singleton.mp h
      rw [hp0node] at hp0mem hp0res
      have hktos : k ∈ adjOf edges node := (hadj k).mp hp0mem
      have hrem1 : remPreds nodes edges res k = [node] := by
        apply eq_singleton_of_nodup _ _ (remPreds_nodup nodes edges res k hed)
        · exact (mem_remPreds nodes edges res k node).mpr ⟨hp0mem, hp0res⟩
        · intro x hx
          obtain ⟨hxp, hxres⟩ := (mem_remPreds nodes edges res k x).mp hx
          rcases List.mem_append.mp (hall x hxp) with h | h
          · exact absurd h hxres
          · exact List.mem_singleton.mp h
      have hdegk := inv.deg k hk
      rw [hrem1] at hdegk
      have hz : k ∈ zerosOf m (adjOf edges node) :=
        (hzeros_mem k).mpr ⟨hktos, by simpa using hdegk⟩
      exact List.mem_append_right _ (hq ▸ List.mem_append_right _ hz)
  · -- order
    intro i hi p hp
    have hlen : (res ++ [node]).length = res.length + 1 := by simp
    rcases Nat.lt_or_ge i res.length with hlt | hge
    · have hget : (res ++ [node]).get ⟨i, hi⟩ = res.get ⟨i, hlt⟩ :=
        List.get_append i hlt
      rw [hget] at hp
      have hold := inv.order i hlt p hp
      have htake : (res ++ [node]).take i = res.take i :=
        List.take_append_of_le_length (le_of_lt hlt)
      rw [htake]
      exact hold
    · have hieq : i = res.length := by omega
      subst hieq
      have hget : (res ++ [node]).get ⟨res.length, hi⟩ = node := by
        simp
      rw [hget] at hp
      have hpres : p ∈ res := hnodepreds p hp
      have htake : (res ++ [node]).take res.length = res := by
        rw [List.take_append_of_le_length (le_refl _), List.take_length]
      rw [htake]
      exact hpres

theorem topoInv_step (nodes : List String) (edges : Edges)
    (hed : (edges.map Prod.fst).Nodup) (htos : ∀ e ∈ edges, e.2.Nodup)
    (m : InDeg) (node : String) (rest res : List String)
    (inv : TopoInv nodes edges m (node :: rest) res) :
    TopoInv nodes edges ((adjOf edges node).foldl decStep (m, rest)).1
      ((adjOf edges node).foldl decStep (m, rest)).2 (res ++ [node]) ∧
    kahnMeasure ((adjOf edges node).foldl decStep (m, rest)).1
      ((adjOf edges node).foldl decStep (m, rest)).2 < kahnMeasure m (node :: rest) := by
  have htosnd : (adjOf edges node).Nodup := by
    unfold adjOf
    cases hget : jsGet edges node with
    | none => simp
    | some tos =>
      simpa using htos (node, tos) (jsGet_mem' edges node tos hget)
  obtain ⟨hkeys, hpt, hq⟩ := foldDec_spec (adjOf edges node) htosnd m rest
  refine ⟨topoInv_step_core nodes edges hed m node rest res _ _ inv htosnd hkeys hpt hq, ?_⟩
  have hm : kahnMeasure ((adjOf edges node).foldl decStep (m, rest)).1
      ((adjOf edges node).foldl decStep (m, rest)).2 ≤ kahnMeasure m rest :=
    foldDec_measure (adjOf edges node) (m, rest)
  have : kahnMeasure m rest < kahnMeasure m (node :: rest) := by
    simp [kahnMeasure]
  omega

/-! ### The loop and the initial state -/

theorem kahnLoop_inv (nodes : List String) (edges : Edges)
    (hne : "" ∉ nodes) (hed : (edges.map Prod.fst).Nodup)
    (htos : ∀ e ∈ edges, e.2.Nodup) :
    ∀ (fuel : Nat) (m : InDeg) (queue res : List String),
      TopoInv nodes edges m queue res →
      kahnMeasure m queue ≤ fuel →
      ∃ m', TopoInv nodes edges m' [] (kahnLoopF edges fuel m queue res) := by
  intro fuel
  induction fuel with
  | zero =>
    intro m queue res inv hm
    have hq : queue = [] := by
      have : queue.length = 0 := by
        simp only [kahnMeasure] at hm
        omega
      exact List.length_eq_zero.mp this
    subst hq
    exact ⟨m, inv⟩
  | succ fuel ih =>
    intro m queue res inv hm
    cases queue with
    | nil => exact ⟨m, inv⟩
    | cons node rest =>
      have hnode : node ∈ nodes :=
        inv.sched_sub node (List.mem_append_right _ (List.mem_cons_self _ _))
      have hne2 : ¬ node = "" := fun hh => hne (hh ▸ hnode)
      obtain ⟨inv', hlt⟩ := topoInv_step nodes edges hed htos m node rest res inv
      have hmq : kahnMeasure m (node :: rest) ≤ fuel + 1 := hm
      have hres := ih _ _ _ inv' (by omega)
      simp only [kahnLoopF]
      rw [if_neg hne2]
      exact hres

theorem jsSetAssoc_not_mem {α : Type} (m : List (String × α)) (k : String) (v : α)
    (h : ¬ k ∈ m.map Prod.fst) : jsSetAssoc m k v = m ++ [(k, v)] := by
  induction m with
  | nil => rfl
  | cons e rest ih =>
    have hek : ¬ e.1 = k := fun hh => h (by simp [hh])
    simp only [jsSetAssoc, if_neg hek, List.cons_append]
    rw [ih (fun hh => h (by simp [hh]))]

theorem initDeg_go (nodes : List String) :
    ∀ acc : InDeg, (∀ n ∈ nodes, ¬ n ∈ acc.map Prod.fst) → nodes.Nodup →
      nodes.foldl (fun m n => jsSetAssoc m n 0) acc =
        acc ++ nodes.map (fun n => (n, (0 : Int))) := by
  induction nodes with
  | nil =>
    intro acc _ _
    simp
  | cons n rest ih =>
    intro acc hacc hnd
    rw [List.foldl_cons, jsSetAssoc_not_mem acc n 0 (hacc n (List.mem_cons_self n rest))]
    rw [ih (acc ++ [(n, 0)]) ?_ (List.nodup_cons.mp hnd).2]
    · simp
    · intro x hx
      rw [List.map_append]
      intro hmem
      rcases List.mem_append.mp hmem with h1 | h2
      · exact hacc x (List.mem_cons_of_mem n hx) h1
      · have : x = n := by simpa using h2
        exact (List.nodup_cons.mp hnd).1 (this ▸ hx)

theorem initDeg_spec (nodes : List String) (hnd : nodes.Nodup) :
    initDeg nodes = nodes.map (fun n => (n, (0 : Int))) := by
  have := initDeg_go nodes [] (by simp) hnd
  simpa [initDeg] using this

theorem bumpTargets_spec (tos : List String) :
    ∀ m : InDeg,
      (bumpTargets m tos).map Prod.fst = m.map Prod.fst ∧
      ∀ k, jsGet (bumpTargets m tos) k =
        (jsGet m k).map (fun d => d + (tos.count k : Int)) := by
  induction tos with
  | nil =>
    intro m
    refine ⟨rfl, ?_⟩
    intro k
    simp only [bumpTargets, List.foldl_nil]
    cases jsGet m k <;> simp
  | cons t rest ih =>
    intro m
    have hstep : bumpTargets m (t :: rest) =
        bumpTargets (match jsGet m t with
          | some d => jsSetAssoc m t (d + 1)
          | none => m) rest := by
      simp only [bumpTargets, List.foldl_cons]
    cases hg : jsGet m t with
    | none =>
      rw [hstep, hg]
      obtain ⟨hkeys, hpt⟩ := ih m
      refine ⟨hkeys, ?_⟩
      intro k
      rw [hpt k]
      by_cases hk : k = t
      · subst hk
        rw [hg]
        simp
      · rw [List.count_cons_of_ne hk]
    | some d =>
      rw [hstep, hg]
      have hkm : t ∈ m.map Prod.fst := (jsGet_isSome_iff m t).mp (by rw [hg]; rfl)
      obtain ⟨hkeys, hpt⟩ := ih (jsSetAssoc m t (d + 1))
      refine ⟨by rw [hkeys, jsSetAssoc_map_fst m t (d + 1) hkm], ?_⟩
      intro k
      rw [hpt k]
      by_cases hk : k = t
      · subst hk
        rw [jsGet_set_self, hg, List.count_cons_self]
        simp only [Option.map_some']
        congr 1
        push_cast
        ring
      · rw [jsGet_set_ne m t k (d + 1) (fun hh => hk hh.symm),
          List.count_cons_of_ne hk]

theorem countDegrees_spec (nodes : List String) :
    ∀ edges : Edges, (∀ e ∈ edges, e.2.Nodup) →
      ∀ m : InDeg, m.map Prod.fst = nodes →
        (countDegrees m edges).map Prod.fst = nodes ∧
        ∀ k ∈ nodes, jsGet (countDegrees m edges) k =
          (jsGet m k).map (fun d => d + ((predsE nodes edges k).length : Int)) := by
  intro edges
  induction edges with
  | nil =>
    intro _ m hm
    refine ⟨hm, ?_⟩
    intro k _
    simp only [countDegrees, List.foldl_nil, predsE, List.filter_nil, List.map_nil,
      List.length_nil, Nat.cast_zero]
    cases jsGet m k <;> simp
  | cons e rest ih =>
    intro htos m hm
    have hstep : countDegrees m (e :: rest) =
        countDegrees (if (jsGet m e.1).isSome then bumpTargets m e.2 else m) rest := by
      simp only [countDegrees, List.foldl_cons]
    by_cases hsrc : (jsGet m e.1).isSome = true
    · have hsrcn : e.1 ∈ nodes := hm ▸ (jsGet_isSome_iff m e.1).mp hsrc
      obtain ⟨hbk, hbp⟩ := bumpTargets_spec e.2 m
      obtain ⟨hkeys, hpt⟩ := ih (fun x hx => htos x (List.mem_cons_of_mem e hx))
        (bumpTargets m e.2) (by rw [hbk, hm])
      rw [hstep, if_pos hsrc]
      refine ⟨hkeys, ?_⟩
      intro k hk
      rw [hpt k hk, hbp k]
      by_cases hkt : k ∈ e.2
      · have hpcons : predsE nodes (e :: rest) k = e.1 :: predsE nodes rest k := by
          unfold predsE
          rw [List.filter_cons]
          have hcond : (nodes.contains e.1 && e.2.contains k) = true := by
            rw [Bool.and_eq_true]
            exact ⟨List.elem_eq_true_of_mem hsrcn, List.elem_eq_true_of_mem hkt⟩
          simp only [hcond, if_true, List.map_cons]
        rw [hpcons]
        have hcount : e.2.count k = 1 := by
          have h1 : 0 < e.2.count k := List.count_pos_iff_mem.mpr hkt
          have h2 : e.2.count k ≤ 1 :=
            List.nodup_iff_count_le_one.mp (htos e (List.mem_cons_self e rest)) k
          omega
        rw [hcount]
        cases jsGet m k with
        | none => simp
        | some d =>
          simp only [Option.map_some']
          congr 1
          simp only [List.length_cons]
          push_cast
          ring
      · have hpcons : predsE nodes (e :: rest) k = predsE nodes rest k := by
          unfold predsE
          rw [List.filter_cons]
          have hc2 : e.2.contains k = false := by
            rw [← Bool.not_eq_true]
            intro hh
            exact hkt (List.mem_of_elem_eq_true hh)
          have hcond : (nodes.contains e.1 && e.2.contains k) = false := by
            rw [hc2, Bool.and_false]
          simp only [hcond, Bool.false_eq_true, if_false]
        rw [hpcons]
        have hcount : e.2.count k = 0 := List.count_eq_zero.mpr hkt
        rw [hcount]
        cases jsGet m k <;> simp
    · have hsrcn : ¬ e.1 ∈ nodes := fun hh =>
        hsrc ((jsGet_isSome_iff m e.1).mpr (hm ▸ hh))
      obtain ⟨hkeys, hpt⟩ := ih (fun x hx => htos x (List.mem_cons_of_mem e hx)) m hm
      rw [hstep, if_neg hsrc]
      refine ⟨hkeys, ?_⟩
      intro k hk
      rw [hpt k hk]
      have hpcons : predsE nodes (e :: rest) k = predsE nodes rest k := by
        unfold predsE
        rw [List.filter_cons]
        have hc1 : nodes.contains e.1 = false := by
          rw [← Bool.not_eq_true]
          intro hh
          exact hsrcn (List.mem_of_elem_eq_true hh)
        have hcond : (nodes.contains e.1 && e.2.contains k) = false := by
          rw [hc1, Bool.false_and]
        simp only [hcond, Bool.false_eq_true, if_false]
      rw [hpcons]

theorem remPreds_nil (nodes : List String) (edges : Edges) (k : String) :
    remPreds nodes edges [] k = predsE nodes edges k := by
  simp [remPreds]

theorem topoInv_init (nodes : List String) (edges : Edges)
    (hnd : nodes.Nodup) (htos : ∀ e ∈ edges, e.2.Nodup) :
    TopoInv nodes edges (countDegrees (initDeg nodes) edges)
      (((countDegrees (initDeg nodes) edges).filter (fun p => p.2 = 0)).map
        (fun p => p.1)) [] := by
  have hik : (initDeg nodes).map Prod.fst = nodes := by
    rw [initDeg_spec nodes hnd, List.map_map]
    exact List.map_id nodes
  have hig : ∀ k ∈ nodes, jsGet (initDeg nodes) k = some 0 := by
    intro k hk
    have hmem : (k, (0 : Int)) ∈ initDeg nodes := by
      rw [initDeg_spec nodes hnd]
      exact List.mem_map.mpr ⟨k, hk, rfl⟩
    exact jsGet_eq_of_nodup (initDeg nodes) (k, 0) (by rw [hik]; exact hnd) hmem
  obtain ⟨hkeys, hpt⟩ := countDegrees_spec nodes edges htos (initDeg nodes) hik
  have hdeg : ∀ k ∈ nodes, jsGet (countDegrees (initDeg nodes) edges) k =
      some ((predsE nodes edges k).length : Int) := by
    intro k hk
    rw [hpt k hk, hig k hk]
    simp
  have hqmem : ∀ k, k ∈ ((countDegrees (initDeg nodes) edges).filter
      (fun p => p.2 = 0)).map (fun p => p.1) →
      k ∈ nodes ∧ jsGet (countDegrees (initDeg nodes) edges) k = some 0 := by
    intro k hk
    rcases List.mem_map.mp hk with ⟨p, hp, hpk⟩
    have hpm := (List.mem_filter.mp hp).1
    have hp0 : p.2 = 0 := by simpa using (List.mem_filter.mp hp).2
    have hkn : k ∈ nodes := by
      rw [← hkeys]
      exact hpk ▸ List.mem_map.mpr ⟨p, hpm, rfl⟩
    have hget : jsGet (countDegrees (initDeg nodes) edges) p.1 = some p.2 :=
      jsGet_eq_of_nodup _ p (by rw [hkeys]; exact hnd) hpm
    refine ⟨hkn, ?_⟩
    rw [← hpk, hget, hp0]
  refine ⟨hkeys, ?_, ?_, ?_, ?_, ?_, ?_⟩
  · intro k hk
    rw [remPreds_nil, hdeg k hk]
  · intro k hk
    rw [List.nil_append] at hk
    exact (hqmem k hk).1
  · rw [List.nil_append]
    have hsl : List.Sublist
        (List.map Prod.fst ((countDegrees (initDeg nodes) edges).filter
          (fun p => p.2 = 0)))
        (List.map Prod.fst (countDegrees (initDeg nodes) edges)) :=
      List.Sublist.map Prod.fst (List.filter_sublist _)
    rw [hkeys] at hsl
    exact hnd.sublist hsl
  · intro k hk p hp
    obtain ⟨hkn, h0⟩ := hqmem k hk
    rw [hdeg k hkn] at h0
    have hlen : (predsE nodes edges k).length = 0 := by
      have := Option.some.inj h0
      omega
    rw [List.length_eq_zero.mp hlen] at hp
    cases hp
  · intro k hk hall
    have hpnil : predsE nodes edges k = [] :=
      List.eq_nil_iff_forall_not_mem.mpr
        (fun x hx => absurd (hall x hx) (List.not_mem_nil x))
    have h0 : jsGet (countDegrees (initDeg nodes) edges) k = some 0 := by
      rw [hdeg k hk, hpnil]
      simp
    have hmem : (k, (0 : Int)) ∈ countDegrees (initDeg nodes) edges :=
      jsGet_mem' _ k 0 h0
    rw [List.nil_append]
    refine List.mem_map.mpr ⟨(k, 0), List.mem_filter.mpr ⟨hmem, by simp⟩, rfl⟩
  · intro i hi
    exact absurd hi (Nat.not_lt_zero i)

theorem topoResult_final (nodes : List String) (edges : Edges)
    (hnd : nodes.Nodup) (hne : "" ∉ nodes) (hed : (edges.map Prod.fst).Nodup)
    (htos : ∀ e ∈ edges, e.2.Nodup) :
    ∃ m', TopoInv nodes edges m' [] (topoResult nodes edges) :=
  kahnLoop_inv nodes edges hne hed htos _ _ _ _ (topoInv_init nodes edges hnd htos)
    (le_refl _)

/-! ### From the final state to the claim -/

theorem topoFinal_not_placed (nodes : List String) (edges : Edges) (m' : InDeg)
    (res : List String) (inv : TopoInv nodes edges m' [] res) (k : String)
    (hk : k ∈ nodes) (hkres : k ∉ res) :
    ∃ p ∈ predsE nodes edges k, p ∉ res := by
  by_contra hcon
  push_neg at hcon
  exact hkres (by simpa using inv.ready_sched k hk hcon)

theorem exists_cycle_of_preds (r : String → String → Prop) (S : List String)
    (hne : S ≠ []) (h : ∀ k ∈ S, ∃ p ∈ S, r p k) :
    ∃ x, Relation.TransGen r x x := by
  classical
  obtain ⟨x0, hx0⟩ := List.exists_mem_of_ne_nil S hne
  have hpick : ∀ k, ∃ p, (k ∈ S → p ∈ S ∧ r p k) := by
    intro k
    by_cases hk : k ∈ S
    · obtain ⟨p, hp1, hp2⟩ := h k hk
      exact ⟨p, fun _ => ⟨hp1, hp2⟩⟩
    · exact ⟨x0, fun hh => absurd hh hk⟩
  choose g hg using hpick
  have hchain_mem : ∀ n, g^[n] x0 ∈ S := by
    intro n
    induction n with
    | zero => simpa using hx0
    | succ n ihn =>
      rw [Function.iterate_succ_apply']
      exact (hg _ ihn).1
  have hchain_r : ∀ n, r (g^[n + 1] x0) (g^[n] x0) := by
    intro n
    rw [Function.iterate_succ_apply']
    exact (hg _ (hchain_mem n)).2
  have htrans : ∀ d n, Relation.TransGen r (g^[n + d + 1] x0) (g^[n] x0) := by
    intro d
    induction d with
    | zero =>
      intro n
      exact Relation.TransGen.single (hchain_r n)
    | succ d ihd =>
      intro n
      have h1 : r (g^[n + d + 1 + 1] x0) (g^[n + d + 1] x0) := hchain_r (n + d + 1)
      have heq : n + (d + 1) + 1 = n + d + 1 + 1 := by omega
      rw [heq]
      exact Relation.TransGen.head h1 (ihd n)
  have hcard : S.toFinset.card <
      (Finset.univ : Finset (Fin (S.toFinset.card + 1))).card := by
    simp
  obtain ⟨i, -, j, -, hij, heq⟩ :=
    Finset.exists_ne_map_eq_of_card_lt_of_maps_to hcard
      (fun (i : Fin (S.toFinset.card + 1)) _ =>
        List.mem_toFinset.mpr (hchain_mem i.1))
  have key : ∀ a b : Nat, a < b → g^[a] x0 = g^[b] x0 →
      ∃ x, Relation.TransGen r x x := by
    intro a b hab he
    have hb : b = a + (b - a - 1) + 1 := by omega
    have ht := htrans (b - a - 1) a
    rw [← hb] at ht
    rw [← he] at ht
    exact ⟨_, ht⟩
  rcases Nat.lt_or_ge i.1 j.1 with hlt | hge
  · exact key i.1 j.1 hlt heq
  · have hj : j.1 < i.1 := by
      rcases Nat.lt_or_ge j.1 i.1 with h1 | h1
      · exact h1
      · exact absurd (Fin.ext (le_antisymm h1 hge)) hij
    exact key j.1 i.1 hj heq.symm

theorem res_perm_of_length (nodes res : List String)
    (hres_nd : res.Nodup) (hsub : res ⊆ nodes)
    (hlen : res.length = nodes.length) : res.Perm nodes :=
  (List.Nodup.subperm hres_nd hsub).perm_of_length_le (le_of_eq hlen.symm)

theorem topoShort_facts (nodes : List String) (edges : Edges)
    (hnd : nodes.Nodup) (hne : "" ∉ nodes) (hed : (edges.map Prod.fst).Nodup)
    (htos : ∀ e ∈ edges, e.2.Nodup)
    (hlen : (topoResult nodes edges).length ≠ nodes.length) :
    nodes.filter (fun n => !(topoResult nodes edges).contains n) ≠ [] ∧
    (∃ x, Relation.TransGen (EdgeRel nodes edges) x x) := by
  obtain ⟨m', inv⟩ := topoResult_final nodes edges hnd hne hed htos
  have hnd_res : (topoResult nodes edges).Nodup := by simpa using inv.sched_nd
  have hsub : topoResult nodes edges ⊆ nodes := fun a ha =>
    inv.sched_sub a (by simpa using ha)
  have hle : (topoResult nodes edges).length ≤ nodes.length :=
    (List.Nodup.subperm hnd_res hsub).length_le
  have hlt : (topoResult nodes edges).length < nodes.length :=
    lt_of_le_of_ne hle hlen
  have hSmem : ∀ k, k ∈ nodes.filter (fun n => !(topoResult nodes edges).contains n) ↔
      (k ∈ nodes ∧ k ∉ topoResult nodes edges) := by
    intro k
    rw [List.mem_filter]
    constructor
    · rintro ⟨h1, h2⟩
      refine ⟨h1, fun hmem => ?_⟩
      rw [Bool.not_eq_true', ← Bool.not_eq_true] at h2
      exact h2 (List.elem_eq_true_of_mem hmem)
    · rintro ⟨h1, h2⟩
      refine ⟨h1, ?_⟩
      rw [Bool.not_eq_true', ← Bool.not_eq_true]
      exact fun hh => h2 (List.mem_of_elem_eq_true hh)
  have hSne : nodes.filter (fun n => !(topoResult nodes edges).contains n) ≠ [] := by
    intro hnil
    have hall : ∀ n ∈ nodes, n ∈ topoResult nodes edges := by
      intro n hn
      by_contra hnot
      have : n ∈ nodes.filter (fun n => !(topoResult nodes edges).contains n) :=
        (hSmem n).mpr ⟨hn, hnot⟩
      rw [hnil] at this
      cases this
    have : nodes.length ≤ (topoResult nodes edges).length :=
      (List.Nodup.subperm hnd hall).length_le
    omega
  refine ⟨hSne, ?_⟩
  apply exists_cycle_of_preds (EdgeRel nodes edges)
    (nodes.filter (fun n => !(topoResult nodes edges).contains n)) hSne
  intro k hk
  obtain ⟨hkn, hkres⟩ := (hSmem k).mp hk
  obtain ⟨p, hp, hpres⟩ := topoFinal_not_placed nodes edges m' _ inv k hkn hkres
  refine ⟨p, (hSmem p).mpr ⟨predsE_sources nodes edges k p hp, hpres⟩, hp, hkn⟩

/-- C2: for every duplicate-free set of (non-empty) table names and every
edge map with duplicate-free sources and target sets, `topologicalSort`
(a) on success returns a permutation of the nodes in which the source of
every in-set edge appears strictly before its target, (b) on failure names
exactly the nodes it could not place — a non-empty set — and a directed
cycle exists, and (c) never fails when the restricted edge relation is
acyclic. -/
theorem c2_topological_sort (nodes : List String) (edges : Edges)
    (hnd : nodes.Nodup) (hne : "" ∉ nodes)
    (hed : (edges.map Prod.fst).Nodup) (htos : ∀ e ∈ edges, e.2.Nodup) :
    (∀ order, topologicalSort nodes edges = .ok order →
      order.Perm nodes ∧
      ∀ e ∈ edges, e.1 ∈ nodes → ∀ t ∈ e.2, t ∈ nodes →
        ∀ (i j : Nat) (hi : i < order.length) (hj : j < order.length),
          order.get ⟨i, hi⟩ = e.1 → order.get ⟨j, hj⟩ = t → i < j) ∧
    (∀ rem, topologicalSort nodes edges = .error rem →
      rem = nodes.filter (fun n => !(topoResult nodes edges).contains n) ∧
      rem ≠ [] ∧ ∃ x, Relation.TransGen (EdgeRel nodes edges) x x) ∧
    ((∀ x, ¬ Relation.TransGen (EdgeRel nodes edges) x x) →
      ∃ order, topologicalSort nodes edges = .ok order) := by
  obtain ⟨m', inv⟩ := topoResult_final nodes edges hnd hne hed htos
  refine ⟨?_, ?_, ?_⟩
  · intro order hok
    unfold topologicalSort at hok
    by_cases hlen : (topoResult nodes edges).length ≠ nodes.length
    · rw [if_pos hlen] at hok
      cases hok
    · rw [if_neg hlen] at hok
      have hres : topoResult nodes edges = order := by
        cases hok
        rfl
      push_neg at hlen
      rw [hres] at inv hlen
      have hnd_res : order.Nodup := by simpa using inv.sched_nd
      have hsub : order ⊆ nodes := fun a ha => inv.sched_sub a (by simpa using ha)
      refine ⟨res_perm_of_length nodes order hnd_res hsub hlen, ?_⟩
      intro e he h1 t ht h2 i j hi hj hgi hgj
      have hpred : e.1 ∈ predsE nodes edges t := by
        refine List.mem_map.mpr ⟨e, List.mem_filter.mpr ⟨he, ?_⟩, rfl⟩
        rw [Bool.and_eq_true]
        exact ⟨List.elem_eq_true_of_mem h1, List.elem_eq_true_of_mem ht⟩
      have htake : e.1 ∈ order.take j := inv.order j hj e.1 (hgj ▸ hpred)
      obtain ⟨n, hn, hgn⟩ := List.mem_iff_getElem.mp htake
      have hnlen : n < order.length := lt_of_lt_of_le hn (by
        rw [List.length_take]
        exact min_le_right _ _)
      have hnj : n < j := lt_of_lt_of_le hn (by
        rw [List.length_take]
        exact min_le_left _ _)
      have hgn2 : order[n] = e.1 := by
        rw [List.getElem_take] at hgn
        exact hgn
      have hni : n = i := by
        have hgi2 : order[i] = e.1 := hgi
        rw [← hgi2] at hgn2
        exact (List.Nodup.getElem_inj_iff hnd_res).mp hgn2
      omega
  · intro rem herr
    unfold topologicalSort at herr
    by_cases hlen : (topoResult nodes edges).length ≠ nodes.length
    · rw [if_pos hlen] at herr
      have hrem : rem = nodes.filter (fun n => !(topoResult nodes edges).contains n) := by
        cases herr
        rfl
      obtain ⟨hSne, hcyc⟩ := topoShort_facts nodes edges hnd hne hed htos hlen
      exact ⟨hrem, hrem ▸ hSne, hcyc⟩
    · rw [if_neg hlen] at herr
      cases herr
  · intro hacyc
    by_cases hlen : (topoResult nodes edges).length ≠ nodes.length
    · exfalso
      obtain ⟨-, x, hx⟩ := topoShort_facts nodes edges hnd hne hed htos hlen
      exact hacyc x hx
    · refine ⟨topoResult nodes edges, ?_⟩
      unfold topologicalSort
      rw [if_neg hlen]

/-- C2, witness: the acyclic two-node graph `a → b` sorts successfully. -/
theorem c2_topological_sort_witness :
    ∃ order, topologicalSort ["a", "b"] [("a", ["b"])] = .ok order := by
  have hacyc : ∀ x, ¬ Relation.TransGen (EdgeRel ["a", "b"] [("a", ["b"])]) x x := by
    intro x hx
    have hxa : x = "a" := by
      obtain ⟨c, hxc, -⟩ := (Relation.TransGen.head'_iff).mp hx
      have := predsE_sub_srcs ["a", "b"] [("a", ["b"])] c x hxc.1
      simpa using this
    have hxb : x = "b" := by
      obtain ⟨c, -, hcx⟩ := (Relation.TransGen.tail'_iff).mp hx
      rcases List.mem_map.mp hcx.1 with ⟨e, hef, -⟩
      have hee := (List.mem_filter.mp hef).1
      have hp := (List.mem_filter.mp hef).2
      have he : e = ("a", ["b"]) := by simpa using hee
      subst he
      rw [Bool.and_eq_true] at hp
      have := List.mem_of_elem_eq_true hp.2
      simpa using this
    rw [hxa] at hxb
    exact absurd hxb (by decide)
  exact (c2_topological_sort ["a", "b"] [("a", ["b"])] (by decide) (by decide)
    (by decide) (by decide)).2.2 hacyc

/-- C6: a nullable self-referencing foreign key is NOT out of scope for the
cycle detection: `runSeeder` adds the self-edge `users → users` to the graph,
and `topologicalSort` then fails naming `users`, so the table cannot be
seeded at all — contradicting the claim that the self-reference does not
cause the cycle-detection failure. -/
theorem c6_self_reference_code_bug :
    (usersSelfTable.columns.map (fun c => (c.name, c.isNullable))) =
      [("id", false), ("boss_id", true)] ∧
    buildSeedEdges "public" [usersSelfTable] = [("users", ["users"])] ∧
    topologicalSort (jsSetOfStr ([usersSelfTable].map (fun t => t.name)))
      (buildSeedEdges "public" [usersSelfTable]) = .error ["users"] ∧
    cycleErrorMessage ["users"] =
      "Cycle detected in table dependencies. Cyclic tables: users" := by
  refine ⟨by decide, by decide, by decide, rfl⟩

/-- C8, witness: a `numeric(5,2)` column generates a value below `10^3`. -/
theorem c8_decimal_bound_witness :
    ∃ (k : Nat) (r1 : Rng),
      generateValue ⟨"total", "numeric", "numeric", false, none, false, false, none,
        some 5, some 2⟩ [] none rngConst0 = .ok (.vfloat (k : Int) 2, r1) ∧
      k ≤ (10 ^ (5 - 2) - 1) * 10 ^ 2 ∧
      0 ≤ (k : ℚ) / (10 : ℚ) ^ 2 ∧
      (k : ℚ) / (10 : ℚ) ^ 2 < (10 : ℚ) ^ (5 - 2) :=
  c8_decimal_bound_amended ⟨"total", "numeric", "numeric", false, none, false, false,
      none, some 5, some 2⟩ 5 2 [] rngConst0 rfl rfl rfl rfl (by decide)
    (fun h => absurd h (by decide)) (fun h => absurd h (by decide)) (by decide)

/-- C9, witness: file value 10, flag value 100: the merge takes the flag and
the cap pulls it back to 50; the per-table target never exceeds 50. -/
theorem c9_max_records_capped_witness :
    resolveMaxRecords (some 10) (some 100) ≤ 50 ∧
    resolveMaxRecords (some 10) (some 100) = 50 ∧
    targetOf (resolveMaxRecords (some 10) (some 100)) 3 ≤ 50 :=
  ⟨(c9_max_records_capped (some 10) (some 100) 3).1,
   (c9_max_records_capped (some 10) (some 100) 3).2.1 (by decide),
   (c9_max_records_capped (some 10) (some 100) 3).2.2⟩

/-- C10, witness: the `notes` column is an insert column by the membership
characterization, the insert statement names it, and the seeded row has one
value per insert column. -/
theorem c10_insert_column_selection_witness :
    ((⟨"note", "text", "text", false, none, false, false, none, none, none⟩ :
        ColumnInfo) ∈ insertColumnsOf notesTable ↔
      ((⟨"note", "text", "text", false, none, false, false, none, none, none⟩ :
          ColumnInfo) ∈ notesTable.columns ∧
        (⟨"note", "text", "text", false, none, false, false, none, none, none⟩ :
          ColumnInfo).isIdentity = false ∧
        (⟨"note", "text", "text", false, none, false, false, none, none, none⟩ :
          ColumnInfo).isGenerated = false ∧
        ((⟨"note", "text", "text", false, none, false, false, none, none, none⟩ :
          ColumnInfo).columnDefault ≠ none →
          (⟨"note", "text", "text", false, none, false, false, none, none, none⟩ :
            ColumnInfo).name ∈ fkColumnNames notesTable))) ∧
    insertStatementSql notesTable "($1)" =
      "insert into " ++ quoteIdent notesTable.schema ++ "." ++
        quoteIdent notesTable.name ++ " (" ++
        String.intercalate ", "
          ((insertColumnsOf notesTable).map (fun c => quoteIdent c.name)) ++
        ") values " ++ "($1)" ∧
    (∀ row ∈ [[Value.vnull]], row.length = (insertColumnsOf notesTable).length) :=
  ⟨c10_insert_column_selection.1 notesTable
      ⟨"note", "text", "text", false, none, false, false, none, none, none⟩
      (by decide),
   c10_insert_column_selection.2.1 notesTable "($1)",
   c10_insert_column_selection.2.2 notesTable 1 [] [] []
      [("note", ⟨none, some [.vnull]⟩)] rngConst0 [[.vnull]] (by decide)⟩

end Seeder
